import Mathlib

/-!
Verification of the shot-normalization and derived-metrics pipeline of the
coachinggolf portal.  Python strings are modelled as lists of characters,
pandas missing values (NaN) as `Option.none`, Python floats as exact
rationals (the libm trigonometry on doubles is not re-derived: the
derived-spin row computation takes the machine-computed cosine and sine
cells as inputs, with the relevant double values embedded in ℚ).
Character classes follow the ASCII semantics of the regular expressions in
the source; the Unicode tables (lower-casing, NFKD decomposition, combining
marks) are modelled on the Latin-1 accented letters exercised by the
application, identity elsewhere.
-/

namespace CoachingGolf

/-- Strings are modelled as lists of characters. -/
abbrev Str := List Char

/-- Whitespace, as stripped by Python `str.strip` (ASCII part). -/
def isSpc (c : Char) : Bool :=
  c.toNat == 32 || c.toNat == 9 || c.toNat == 10 || c.toNat == 13 || c.toNat == 11 || c.toNat == 12

/-- ASCII decimal digit, the `\d` class of the source regexes. -/
def isDigitC (c : Char) : Bool :=
  48 ≤ c.toNat && c.toNat ≤ 57

/-- Characters kept by the roster key normalizer, the class `[a-z0-9]`. -/
def isLowAlnum (c : Char) : Bool :=
  (48 ≤ c.toNat && c.toNat ≤ 57) || (97 ≤ c.toNat && c.toNat ≤ 122)

/-- Combining marks dropped after NFKD decomposition (U+0300 – U+036F). -/
def combining (c : Char) : Bool :=
  768 ≤ c.toNat && c.toNat ≤ 879

/-- Lower-casing of the accented capitals used by the application
(model of Python `str.lower` beyond ASCII). -/
def accLower (c : Char) : Char :=
  match c with
  | 'À' => 'à' | 'Â' => 'â' | 'Ç' => 'ç' | 'È' => 'è' | 'É' => 'é' | 'Ê' => 'ê' | 'Ë' => 'ë'
  | 'Î' => 'î' | 'Ï' => 'ï' | 'Ô' => 'ô' | 'Ö' => 'ö' | 'Ù' => 'ù' | 'Û' => 'û' | 'Ü' => 'ü'
  | _ => c

/-- Upper-casing of the accented lower-case letters (model of Python
`str.upper` beyond ASCII). -/
def accUpper (c : Char) : Char :=
  match c with
  | 'à' => 'À' | 'â' => 'Â' | 'ç' => 'Ç' | 'è' => 'È' | 'é' => 'É' | 'ê' => 'Ê' | 'ë' => 'Ë'
  | 'î' => 'Î' | 'ï' => 'Ï' | 'ô' => 'Ô' | 'ö' => 'Ö' | 'ù' => 'Ù' | 'û' => 'Û' | 'ü' => 'Ü'
  | _ => c

/-- Python `str.lower`, per character. -/
def pyLower (c : Char) : Char :=
  if 65 ≤ c.toNat ∧ c.toNat ≤ 90 then Char.ofNat (c.toNat + 32) else accLower c

/-- Python `str.upper`, per character. -/
def pyUpper (c : Char) : Char :=
  if 97 ≤ c.toNat ∧ c.toNat ≤ 122 then Char.ofNat (c.toNat - 32) else accUpper c

/-- Drop leading whitespace. -/
def trimL (l : Str) : Str := l.dropWhile isSpc

/-- Drop trailing whitespace. -/
def trimR (l : Str) : Str := ((l.reverse).dropWhile isSpc).reverse

/-- Python `str.strip`. -/
def pyStrip (l : Str) : Str := trimR (trimL l)

theorem dropWhile_head_false {p : Char → Bool} {l : Str} {c : Char}
    (h : (l.dropWhile p).head? = some c) : p c = false := by
  induction l with
  | nil => simp [List.dropWhile] at h
  | cons a t ih =>
    by_cases hp : p a
    · simp [List.dropWhile, hp] at h
      exact ih h
    · simp [List.dropWhile, hp] at h
      subst h
      simpa using hp

theorem dropWhile_eq_self_of_head {p : Char → Bool} {l : Str}
    (h : ∀ c, l.head? = some c → p c = false) : l.dropWhile p = l := by
  cases l with
  | nil => rfl
  | cons a t => simp [List.dropWhile, h a rfl]

theorem dropWhile_idem (p : Char → Bool) (l : Str) :
    (l.dropWhile p).dropWhile p = l.dropWhile p := by
  apply dropWhile_eq_self_of_head
  intro c hc
  exact dropWhile_head_false hc

theorem head_false_of_dropWhile_eq_self {p : Char → Bool} {l : Str} {c : Char}
    (hd : l.dropWhile p = l) (hc : l.head? = some c) : p c = false := by
  cases l with
  | nil => simp at hc
  | cons a t =>
    simp at hc
    subst hc
    by_cases hp : p a
    · have hlen : (t.dropWhile p).length ≤ t.length :=
        List.IsSuffix.length_le (List.dropWhile_suffix p)
      rw [List.dropWhile_cons_of_pos hp] at hd
      have := congrArg List.length hd
      simp at this
      omega
    · simpa using hp

theorem pyStrip_idem (l : Str) : pyStrip (pyStrip l) = pyStrip l := by
  unfold pyStrip
  set A := trimL l with hA
  have hAdrop : A.dropWhile isSpc = A := by
    rw [hA]
    unfold trimL
    exact dropWhile_idem _ _
  set B := A.reverse.dropWhile isSpc with hB
  have hBdrop : B.dropWhile isSpc = B := by rw [hB]; exact dropWhile_idem _ _
  have hTR : trimR A = B.reverse := by rw [trimR, hB]
  have h1 : trimL B.reverse = B.reverse := by
    unfold trimL
    apply dropWhile_eq_self_of_head
    intro c hc
    -- B.reverse is a prefix of A, so its head is the head of A
    obtain ⟨t, ht⟩ : B <:+ A.reverse := by rw [hB]; exact List.dropWhile_suffix _
    have hArev : B.reverse ++ t.reverse = A := by
      have := congrArg List.reverse ht
      simpa [List.reverse_append] using this
    cases hBr : B.reverse with
    | nil => rw [hBr] at hc; simp at hc
    | cons b bs =>
      rw [hBr] at hc hArev
      simp at hc
      subst hc
      exact head_false_of_dropWhile_eq_self hAdrop (by rw [← hArev]; simp)
  rw [hTR, h1]
  unfold trimR
  rw [List.reverse_reverse, hBdrop]

/-!  ## Derived-spin calculator (src/generator.py, recompute_spins)

One cell of the table: `BackSpin` and `SpinAxis` are optional doubles
(`none` = pandas NaN).  The source computes `axis_rad = np.deg2rad(axis)`
and `cosv = np.cos(axis_rad)` in IEEE-754 doubles, replaces an exactly
zero cosine by NaN (`cosv.replace(0, np.nan)`), and forms
`spin_total = back / cosv`, `spin_lat = spin_total * sin(axis_rad)`.
The libm trigonometry on doubles is not re-derived here: the row
computation below takes the machine-computed cosine and sine cells as
inputs; the double values relevant to the claims are embedded in ℚ.
Crucially, `np.cos(np.deg2rad(90.0))` is the nonzero double
`6.123233995736766e-17` — the rounding error of π/2 to double precision
— not `0`, and `np.sin(np.deg2rad(90.0))` is exactly `1.0`. -/

/-- The row computation of `recompute_spins` applied to the
machine-computed cosine and sine of the spin axis: the
`replace(0, np.nan)` guard makes both outputs missing exactly when the
computed cosine is exactly zero; NaN propagation through the arithmetic
is modelled by `Option`. -/
def recompute_spins_row (back cosv sinv : Option ℚ) : Option ℚ × Option ℚ :=
  match back, cosv, sinv with
  | some b, some c, some s =>
    if c = 0 then (none, none)
    else (some (b / c), some (b / c * s))
  | _, _, _ => (none, none)

/-- The IEEE-754 double `np.cos(np.deg2rad(90.0))`, written as its exact
shortest-round-trip decimal `6.123233995736766e-17`: the nearest double
to π/2 misses π/2 by this amount, and the cosine of that double is this
nonzero value. -/
def cos90double : ℚ := 6123233995736766 / 10 ^ 32

/-!  ## Batch session-date validation (src/app.py, show_admin)

`show_admin` collects one canonical session date per uploaded CSV, forms
`uniq = sorted(set(session_dates))`, stops the run (producing no output)
when `len(uniq) > 1`, and otherwise proceeds with `uniq[0]`.  `none`
models the aborted batch. -/

/-- Model of the date-consistency gate of `show_admin`: the session date
the generation step proceeds with, or `none` when the batch is aborted. -/
def show_admin_session_date (session_dates : List String) : Option String :=
  if 1 < ((session_dates.dedup).insertionSort (fun a b => a ≤ b)).length then none
  else ((session_dates.dedup).insertionSort (fun a b => a ≤ b)).head?

theorem two_mem_length {α : Type} {l : List α} {a b : α}
    (ha : a ∈ l) (hb : b ∈ l) (hab : a ≠ b) : 1 < l.length := by
  cases l with
  | nil => simp at ha
  | cons x t =>
    cases t with
    | nil =>
      simp at ha hb
      exact absurd (ha.trans hb.symm) hab
    | cons y u => simp only [List.length_cons]; omega

theorem dedup_all_eq {α : Type} [DecidableEq α] {l : List α} {d : α}
    (hne : l ≠ []) (hall : ∀ x ∈ l, x = d) : l.dedup = [d] := by
  induction l with
  | nil => exact absurd rfl hne
  | cons a t ih =>
    have had : a = d := hall a (by simp)
    subst had
    cases t with
    | nil => simp
    | cons b u =>
      have hbt : a ∈ b :: u := by
        have := hall b (by simp)
        have hb : b = a := by
          have := hall b (by simp)
          have ha := hall a (by simp)
          rw [this, ← ha]
        simp [hb]
      rw [List.dedup_cons_of_mem hbt]
      exact ih (by simp) (fun x hx => hall x (by simp [hx]))

/-- Claim C2: a batch of CSV files whose canonical session dates resolve to
more than one distinct date is aborted before any generation (modelled by
`none`); a batch resolving to exactly one date proceeds with that date. -/
theorem show_admin_session_date_spec (dates : List String) :
    (∀ d1 d2, d1 ∈ dates → d2 ∈ dates → d1 ≠ d2 →
        show_admin_session_date dates = none) ∧
    (∀ d, dates ≠ [] → (∀ x ∈ dates, x = d) →
        show_admin_session_date dates = some d) := by
  constructor
  · intro d1 d2 h1 h2 h12
    unfold show_admin_session_date
    have hlen : 1 < (dates.dedup.insertionSort (fun a b => a ≤ b)).length := by
      rw [List.length_insertionSort]
      exact two_mem_length (List.mem_dedup.mpr h1) (List.mem_dedup.mpr h2) h12
    rw [if_pos hlen]
  · intro d hne hall
    unfold show_admin_session_date
    rw [dedup_all_eq hne hall]
    simp [List.insertionSort, List.orderedInsert]

/-- Witness for C2 at a concrete ambiguous batch and a concrete consistent
batch. -/
theorem show_admin_session_date_spec_witness :
    show_admin_session_date ["2025-03-01", "2025-03-02"] = none ∧
    show_admin_session_date ["2025-03-01", "2025-03-01"] = some "2025-03-01" := by
  constructor
  · exact (show_admin_session_date_spec ["2025-03-01", "2025-03-02"]).1
      "2025-03-01" "2025-03-02" (by simp) (by simp) (by decide)
  · exact (show_admin_session_date_spec ["2025-03-01", "2025-03-01"]).2
      "2025-03-01" (by simp) (by simp)

/-- Claim C1 is a code bug at its focal input: at `SpinAxis = 90` degrees
the machine-computed cosine is the nonzero double `6.123233995736766e-17`,
so the `replace(0, np.nan)` guard of `recompute_spins` never fires, and
for `BackSpin = 3000` both `SpinTotal` and `SpinLat` are present finite
values exceeding `10^19` rpm — not missing, as the claim (and the guard's
evident intent) requires. -/
theorem recompute_spins_at_90_bug :
    cos90double ≠ 0 ∧
    recompute_spins_row (some 3000) (some cos90double) (some 1) =
      (some (3000 / cos90double), some (3000 / cos90double * 1)) ∧
    (10 : ℚ) ^ 19 < 3000 / cos90double := by
  refine ⟨by norm_num [cos90double], ?_, by norm_num [cos90double]⟩
  simp only [recompute_spins_row]
  rw [if_neg (by norm_num [cos90double])]

/-!  ## Smash-factor fallback (src/generator.py, generate_all)

When the `Smash` column is absent or entirely missing after coercion and
both `BallSpeed` and `ClubSpeed` are present, the source computes
`Smash_raw = BallSpeed / ClubSpeed`, replaces `±inf` by NaN and clips to
`[0, 1.50]`.  A pandas float division by zero yields `±inf` (or NaN for
`0/0`), all of which end up missing, so a zero divisor is modelled by
`none` directly. -/

/-- One cell of the computed fallback smash factor. -/
def smash_fallback (ball club : Option ℚ) : Option ℚ :=
  match ball, club with
  | some b, some c =>
    if c = 0 then none else some (max 0 (min (3 / 2) (b / c)))
  | _, _ => none

/-- Column-level gate of the fallback: the `Smash` column is recomputed
from `BallSpeed` and `ClubSpeed` exactly when it is absent or entirely
missing and both speed columns are present; otherwise it is kept. -/
def compute_smash_column (smash : Option (List (Option ℚ)))
    (ball club : Option (List (Option ℚ))) : Option (List (Option ℚ)) :=
  if smash.isNone ∨ (smash.getD []).all (fun x => x.isNone) then
    match ball, club with
    | some bs, some cs => some ((bs.zip cs).map (fun p => smash_fallback p.1 p.2))
    | _, _ => smash
  else smash

/-- Claim C4: when `Smash` is absent or entirely missing and both speed
columns are present, the fallback is `BallSpeed / ClubSpeed` with infinite
results mapped to missing and the result clipped to `[0, 1.50]`; for
positive speeds the computed smash lies in `[0, 1.50]`, and a zero
`ClubSpeed` yields missing, never infinity. -/
theorem compute_smash_column_spec :
    (∀ (smash : Option (List (Option ℚ))) (bs cs : List (Option ℚ)),
      (smash = none ∨ ∀ x ∈ smash.getD [], x = none) →
      compute_smash_column smash (some bs) (some cs) =
        some ((bs.zip cs).map (fun p => smash_fallback p.1 p.2))) ∧
    (∀ b c : ℚ, 0 < b → 0 < c →
      ∃ q, smash_fallback (some b) (some c) = some q ∧ 0 ≤ q ∧ q ≤ 3 / 2) ∧
    (∀ b : ℚ, smash_fallback (some b) (some 0) = none) := by
  refine ⟨?_, ?_, ?_⟩
  · intro smash bs cs hgate
    have hcond : smash.isNone ∨ (smash.getD []).all (fun x => x.isNone) := by
      rcases hgate with h | h
      · subst h; left; rfl
      · right
        rw [List.all_eq_true]
        intro x hx
        rw [h x hx]
        rfl
    unfold compute_smash_column
    rw [if_pos hcond]
  · intro b c _ hc
    refine ⟨max 0 (min (3 / 2) (b / c)), ?_, le_max_left _ _, ?_⟩
    · simp [smash_fallback, ne_of_gt hc]
    · exact max_le (by norm_num) (min_le_left _ _)
  · intro b
    simp [smash_fallback]

/-- Witness for C4 at concrete speeds: `BallSpeed = 3, ClubSpeed = 2`
(a clipped ratio), and a zero `ClubSpeed`. -/
theorem compute_smash_column_spec_witness :
    (∃ q, smash_fallback (some 3) (some 2) = some q ∧ 0 ≤ q ∧ q ≤ 3 / 2) ∧
    smash_fallback (some 3) (some 0) = none :=
  ⟨compute_smash_column_spec.2.1 3 2 (by norm_num) (by norm_num),
   compute_smash_column_spec.2.2 3⟩

/-!  ## Per-player driver aggregate (src/generator.py, generate_all)

For each alias group the source filters driver rows with `Carry > 120`
(pandas comparison: a missing carry compares false), reports the count and
the mean carry of that subset, writing the empty string when the subset is
empty and `round(mean, 1)` otherwise.  A row is modelled by its `IsDriver`
flag and optional `Carry`; the reported cell by an optional rational
(`none` = the empty cell). -/

/-- Python `round` to the nearest integer, half to even. -/
def pyRound (q : ℚ) : ℤ :=
  if q - Int.floor q < 1 / 2 then Int.floor q
  else if 1 / 2 < q - Int.floor q then Int.floor q + 1
  else if Int.floor q % 2 = 0 then Int.floor q else Int.floor q + 1

/-- Python `round(x, 1)`. -/
def pyRound1 (q : ℚ) : ℚ := (pyRound (q * 10) : ℚ) / 10

/-- The filter selecting the "good drives": driver rows with `Carry > 120`. -/
def goodDrive (r : Bool × Option ℚ) : Bool :=
  r.1 && (match r.2 with | some c => decide (120 < c) | none => false)

/-- The reported `Driver_AvgCarry_gt120m` cell for one alias group. -/
def driver_avg_carry_gt120 (rows : List (Bool × Option ℚ)) : Option ℚ :=
  let good := rows.filter goodDrive
  if good.length = 0 then none
  else some (pyRound1 (((good.map (fun r => r.2.getD 0)).sum) / (good.length : ℚ)))

/-- Counterexample to C8 as stated: three good drives with carries 121,
121 and 122 report `121.3`, which is not the mean `364/3` of the subset —
the cell holds the mean rounded to one decimal, not the mean itself. -/
theorem driver_avg_carry_gt120_counterexample :
    driver_avg_carry_gt120 [(true, some 121), (true, some 121), (true, some 122)] =
      some (1213 / 10) ∧ (1213 / 10 : ℚ) ≠ (121 + 121 + 122) / 3 := by
  constructor
  · have hf : List.filter goodDrive
        [(true, some 121), (true, some 121), (true, some 122)] =
        [(true, some 121), (true, some 121), (true, some 122)] := by
      simp [goodDrive]
      norm_num
    have h1 : ((121 : ℚ) + (121 + 122)) / 3 * 10 = 3640 / 3 := by norm_num
    have h2 : Int.floor ((3640 : ℚ) / 3) = 1213 := by
      rw [Int.floor_eq_iff]
      norm_num
    unfold driver_avg_carry_gt120
    rw [hf]
    simp only [List.map, List.sum_cons, List.sum_nil, List.length_cons, List.length_nil]
    norm_num [pyRound1, pyRound, h1, h2]
  · norm_num

/-- Claim C8 (amended): whenever the subset of driver rows with
`Carry > 120` is empty, the reported `Driver_AvgCarry_gt120` cell is
empty/absent — never zero, never a NaN rendered as a string, and the
aggregation does not crash; when the subset is non-empty the cell is the
mean carry over exactly that subset, rounded to one decimal. -/
theorem driver_avg_carry_gt120_spec (rows : List (Bool × Option ℚ)) :
    (rows.filter goodDrive = [] →
      driver_avg_carry_gt120 rows = none ∧ driver_avg_carry_gt120 rows ≠ some 0) ∧
    (rows.filter goodDrive ≠ [] →
      driver_avg_carry_gt120 rows =
        some (pyRound1 ((((rows.filter goodDrive).map (fun r => r.2.getD 0)).sum) /
          ((rows.filter goodDrive).length : ℚ)))) := by
  constructor
  · intro h
    have hz : (rows.filter goodDrive).length = 0 := by rw [h]; rfl
    unfold driver_avg_carry_gt120
    rw [if_pos hz]
    exact ⟨rfl, by simp⟩
  · intro h
    have hz : ¬ (rows.filter goodDrive).length = 0 := by
      simpa [List.length_eq_zero] using h
    unfold driver_avg_carry_gt120
    rw [if_neg hz]

/-- Witness for C8: an all-missing-or-short batch reports an absent cell,
and a singleton good drive reports its own (rounded) carry. -/
theorem driver_avg_carry_gt120_spec_witness :
    (driver_avg_carry_gt120 [(true, some 100), (false, some 200)] = none ∧
      driver_avg_carry_gt120 [(true, some 100), (false, some 200)] ≠ some 0) ∧
    driver_avg_carry_gt120 [(true, some 150)] =
      some (pyRound1 ((((([(true, some 150)] : List (Bool × Option ℚ)).filter
        goodDrive).map (fun r => r.2.getD 0)).sum) /
        ((([(true, some 150)] : List (Bool × Option ℚ)).filter goodDrive).length : ℚ))) :=
  ⟨(driver_avg_carry_gt120_spec [(true, some 100), (false, some 200)]).1 (by decide),
   (driver_avg_carry_gt120_spec [(true, some 150)]).2 (by decide)⟩

/-!  ## Identity resolver (src/roster.py)

`_normalize_name` strips, lower-cases, NFKD-decomposes, drops combining
marks and keeps only `[a-z0-9]`.  `normalize_roster` rebuilds the players
mapping with normalized keys, non-empty aliases and `"R"|"L"` hands.
Roster dictionaries are modelled as association lists; Python dict lookup
(last write wins) as lookup on the reversed list. -/

/-- NFKD decomposition per character (model of `unicodedata.normalize`
restricted to the Latin-1 accented letters, identity elsewhere). -/
def nfkdChar (c : Char) : Str :=
  match c with
  | 'à' => ['a', '̀'] | 'â' => ['a', '̂'] | 'ç' => ['c', '̧']
  | 'è' => ['e', '̀'] | 'é' => ['e', '́'] | 'ê' => ['e', '̂']
  | 'ë' => ['e', '̈'] | 'î' => ['i', '̂'] | 'ï' => ['i', '̈']
  | 'ô' => ['o', '̂'] | 'ö' => ['o', '̈'] | 'ù' => ['u', '̀']
  | 'û' => ['u', '̂'] | 'ü' => ['u', '̈']
  | 'À' => ['A', '̀'] | 'Â' => ['A', '̂'] | 'Ç' => ['C', '̧']
  | 'È' => ['E', '̀'] | 'É' => ['E', '́'] | 'Ê' => ['E', '̂']
  | 'Ë' => ['E', '̈'] | 'Î' => ['I', '̂'] | 'Ï' => ['I', '̈']
  | 'Ô' => ['O', '̂'] | 'Ö' => ['O', '̈'] | 'Ù' => ['U', '̀']
  | 'Û' => ['U', '̂'] | 'Ü' => ['U', '̈']
  | _ => [c]

/-- Model of `_normalize_name`: trim, lower-case, NFKD-decompose, drop
combining marks, keep only `[a-z0-9]`. -/
def normalize_name (l : Str) : Str :=
  let s := (pyStrip l).map pyLower
  if s = [] then []
  else ((s.flatMap nfkdChar).filter (fun c => !combining c)).filter isLowAlnum

/-- One stored player record: the `alias`/`hand` fields of the roster
entry dictionary (`none` = the field is absent). -/
structure PlayerRec where
  aliasF : Option Str
  hand : Option Str
deriving DecidableEq, Repr

/-- A raw roster value: either a bare string (treated as the alias) or a
structured record. -/
inductive RosterVal where
  | bare (s : Str)
  | record (aliasF : Option Str) (hand : Option Str)
deriving DecidableEq, Repr

/-- Python dict lookup on an association list built by repeated insertion:
the last binding of a key wins. -/
def dlookup (players : List (Str × PlayerRec)) (k : Str) : Option PlayerRec :=
  players.reverse.lookup k

/-- The hand-coercion step of `normalize_roster`: strip, upper-case, then
tolerate `right/droitier` and `left/gaucher`, defaulting to `"R"`. -/
def normHand (h : Str) : Str :=
  let hand0 := (pyStrip h).map pyUpper
  let hand1 := if hand0 = [] then ['R'] else hand0
  if hand1 = ['R'] ∨ hand1 = ['L'] then hand1
  else
    let hl := hand1.map pyLower
    if hl = "right".toList ∨ hl = "droitier".toList then ['R']
    else if hl = "left".toList ∨ hl = "gaucher".toList then ['L']
    else ['R']

/-- Normalization of one roster entry, given its raw key: produces the
stored `{alias, hand}` record. -/
def normalize_entry (raw_key : Str) (info : RosterVal) : PlayerRec :=
  match info with
  | .record al hd =>
    let a := pyStrip (al.getD raw_key)
    { aliasF := some (if a = [] then pyStrip raw_key else a),
      hand := some (normHand (hd.getD ['R'])) }
  | .bare s =>
    let a := pyStrip s
    { aliasF := some (if a = [] then pyStrip raw_key else a),
      hand := some ['R'] }

/-- Model of `normalize_roster` on the `players` mapping: normalizes every
key, drops entries whose key normalizes to empty, and normalizes each
value. -/
def normalize_roster (ps : List (Str × RosterVal)) : List (Str × PlayerRec) :=
  ps.filterMap (fun kv =>
    if normalize_name kv.1 = [] then none
    else some (normalize_name kv.1, normalize_entry kv.1 kv.2))

/-- Model of `to_alias`. -/
def to_alias (raw : Str) (players : List (Str × PlayerRec)) : Str :=
  match dlookup players (normalize_name raw) with
  | some info =>
    let a := pyStrip (info.aliasF.getD [])
    if a ≠ [] then a else pyStrip raw
  | none => "UNKNOWN".toList

/-- Model of `hand_of`. -/
def hand_of (raw : Str) (players : List (Str × PlayerRec)) : Str :=
  match dlookup players (normalize_name raw) with
  | some info =>
    let h := (pyStrip (info.hand.getD ['R'])).map pyUpper
    if h = ['R'] ∨ h = ['L'] then h else ['R']
  | none => ['R']

theorem lowAlnum_not_spc {c : Char} (h : isLowAlnum c = true) : isSpc c = false := by
  simp [isLowAlnum] at h
  simp [isSpc]
  omega

theorem lowAlnum_not_combining {c : Char} (h : isLowAlnum c = true) :
    combining c = false := by
  simp [isLowAlnum] at h
  simp [combining]
  omega

theorem pyLower_lowAlnum {c : Char} (h : isLowAlnum c = true) : pyLower c = c := by
  have hb : ¬ (65 ≤ c.toNat ∧ c.toNat ≤ 90) := by
    simp [isLowAlnum] at h
    omega
  rw [pyLower, if_neg hb]
  unfold accLower
  split <;> simp_all [isLowAlnum]

theorem nfkdChar_lowAlnum {c : Char} (h : isLowAlnum c = true) : nfkdChar c = [c] := by
  unfold nfkdChar
  split <;> simp_all [isLowAlnum]

theorem head?_mem {α : Type} {l : List α} {c : α} (hc : l.head? = some c) : c ∈ l := by
  cases l with
  | nil => simp at hc
  | cons a t =>
    simp at hc
    simp [hc]

theorem pyStrip_eq_self_of_no_spc {l : Str} (h : ∀ c ∈ l, isSpc c = false) :
    pyStrip l = l := by
  have h1 : trimL l = l := by
    unfold trimL
    apply dropWhile_eq_self_of_head
    intro c hc
    exact h c (head?_mem hc)
  have h2 : trimR l = l := by
    unfold trimR
    rw [dropWhile_eq_self_of_head, List.reverse_reverse]
    intro c hc
    exact h c (by simpa using head?_mem hc)
  unfold pyStrip
  rw [h1, h2]

theorem flatMap_singleton_id {l : Str} {f : Char → Str}
    (h : ∀ c ∈ l, f c = [c]) : l.flatMap f = l := by
  induction l with
  | nil => rfl
  | cons a t ih =>
    rw [List.flatMap_cons, h a (by simp), ih (fun c hc => h c (by simp [hc]))]
    rfl

theorem map_id_of_fix {l : Str} {f : Char → Char}
    (h : ∀ c ∈ l, f c = c) : l.map f = l := by
  induction l with
  | nil => rfl
  | cons a t ih =>
    rw [List.map_cons, h a (by simp), ih (fun c hc => h c (by simp [hc]))]

theorem normalize_name_mem_lowAlnum {l : Str} {c : Char}
    (hc : c ∈ normalize_name l) : isLowAlnum c = true := by
  unfold normalize_name at hc
  simp only [] at hc
  split at hc
  · simp at hc
  · exact (List.mem_filter.mp hc).2

/-- Idempotence of the roster key normalizer. -/
theorem normalize_name_idem (l : Str) :
    normalize_name (normalize_name l) = normalize_name l := by
  set r := normalize_name l with hr
  have hmem : ∀ c ∈ r, isLowAlnum c = true := fun c hc =>
    normalize_name_mem_lowAlnum (hr ▸ hc)
  have h1 : pyStrip r = r :=
    pyStrip_eq_self_of_no_spc (fun c hc => lowAlnum_not_spc (hmem c hc))
  have h2 : r.map pyLower = r :=
    map_id_of_fix (fun c hc => pyLower_lowAlnum (hmem c hc))
  have h3 : r.flatMap nfkdChar = r :=
    flatMap_singleton_id (fun c hc => nfkdChar_lowAlnum (hmem c hc))
  have h4 : r.filter (fun c => !combining c) = r := by
    rw [List.filter_eq_self]
    intro c hc
    simp [lowAlnum_not_combining (hmem c hc)]
  have h5 : r.filter isLowAlnum = r := by
    rw [List.filter_eq_self]
    intro c hc
    simp [hmem c hc]
  unfold normalize_name
  rw [h1, h2]
  by_cases hnil : r = []
  · rw [if_pos hnil, hnil]
  · rw [if_neg hnil, h3, h4, h5]

theorem normalize_ne_nil_strip {l : Str} (h : normalize_name l ≠ []) :
    pyStrip l ≠ [] := by
  intro hs
  apply h
  unfold normalize_name
  rw [hs]
  rfl

theorem normHand_cases (x : Str) :
    (if x = ['R'] ∨ x = ['L'] then x
     else if x.map pyLower = "right".toList ∨ x.map pyLower = "droitier".toList then ['R']
     else if x.map pyLower = "left".toList ∨ x.map pyLower = "gaucher".toList then ['L']
     else ['R']) = ['R'] ∨
    (if x = ['R'] ∨ x = ['L'] then x
     else if x.map pyLower = "right".toList ∨ x.map pyLower = "droitier".toList then ['R']
     else if x.map pyLower = "left".toList ∨ x.map pyLower = "gaucher".toList then ['L']
     else ['R']) = ['L'] := by
  by_cases h1 : x = ['R'] ∨ x = ['L']
  · rw [if_pos h1]
    exact h1
  · rw [if_neg h1]
    by_cases h2 : x.map pyLower = "right".toList ∨ x.map pyLower = "droitier".toList
    · rw [if_pos h2]
      left
      rfl
    · rw [if_neg h2]
      by_cases h3 : x.map pyLower = "left".toList ∨ x.map pyLower = "gaucher".toList
      · rw [if_pos h3]
        right
        rfl
      · rw [if_neg h3]
        left
        rfl

theorem normHand_RL (h : Str) : normHand h = ['R'] ∨ normHand h = ['L'] := by
  unfold normHand
  simp only []
  exact normHand_cases _

theorem lookup_mem {α β : Type} [BEq α] [LawfulBEq α] {l : List (α × β)} {k : α} {v : β}
    (h : l.lookup k = some v) : (k, v) ∈ l := by
  induction l with
  | nil => simp [List.lookup] at h
  | cons p t ih =>
    obtain ⟨k1, v1⟩ := p
    simp only [List.lookup] at h
    split at h
    · rename_i hk
      have hkk : k = k1 := by simpa using hk
      subst hkk
      simp at h
      simp [h]
    · exact List.mem_cons_of_mem _ (ih h)

theorem dlookup_mem {players : List (Str × PlayerRec)} {k : Str} {v : PlayerRec}
    (h : dlookup players k = some v) : (k, v) ∈ players := by
  unfold dlookup at h
  simpa using lookup_mem h

/-- The invariant established by `normalize_roster` on every stored
entry. -/
theorem normalize_roster_inv {ps : List (Str × RosterVal)} {kv : Str × PlayerRec}
    (h : kv ∈ normalize_roster ps) :
    kv.1 ≠ [] ∧ (∀ c ∈ kv.1, isLowAlnum c = true) ∧
    (∃ a, kv.2.aliasF = some a ∧ a ≠ [] ∧ pyStrip a = a) ∧
    (kv.2.hand = some ['R'] ∨ kv.2.hand = some ['L']) := by
  unfold normalize_roster at h
  obtain ⟨⟨raw, info⟩, hmem, hkv⟩ := List.mem_filterMap.mp h
  by_cases hn : normalize_name raw = []
  · rw [if_pos hn] at hkv
    exact absurd hkv (by simp)
  · rw [if_neg hn] at hkv
    obtain ⟨h1, h2⟩ : kv.1 = normalize_name raw ∧ kv.2 = normalize_entry raw info := by
      cases hkv
      exact ⟨rfl, rfl⟩
  -- hkv : some (key, entry) = some kv
    refine ⟨h1 ▸ hn, fun c hc => normalize_name_mem_lowAlnum (h1 ▸ hc), ?_, ?_⟩
    · have hraw : pyStrip raw ≠ [] := normalize_ne_nil_strip hn
      rw [h2]
      cases info with
      | record al hd =>
        refine ⟨_, rfl, ?_, ?_⟩
        · by_cases ha : pyStrip (al.getD raw) = []
          · simp only [normalize_entry, ha, if_pos]
            simpa using hraw
          · simp only [normalize_entry, if_neg ha]
            simpa using ha
        · by_cases ha : pyStrip (al.getD raw) = []
          · simp only [normalize_entry, ha, if_pos]
            simp [pyStrip_idem]
          · simp only [normalize_entry, if_neg ha]
            simp [pyStrip_idem]
      | bare s =>
        refine ⟨_, rfl, ?_, ?_⟩
        · by_cases ha : pyStrip s = []
          · simp only [normalize_entry, ha, if_pos]
            simpa using hraw
          · simp only [normalize_entry, if_neg ha]
            simpa using ha
        · by_cases ha : pyStrip s = []
          · simp only [normalize_entry, ha, if_pos]
            simp [pyStrip_idem]
          · simp only [normalize_entry, if_neg ha]
            simp [pyStrip_idem]
    · rw [h2]
      cases info with
      | record al hd =>
        rcases normHand_RL (hd.getD ['R']) with hrl | hrl
        · left; simp [normalize_entry, hrl]
        · right; simp [normalize_entry, hrl]
      | bare s => left; rfl

/-- Claim C10: every entry produced by roster normalization maps a
non-empty key made only of `[a-z0-9]` characters to a record whose alias
is a non-empty string and whose hand is exactly `"R"` or `"L"`, whatever
the raw entry looked like; and `hand_of` returns `"R"` or `"L"` on every
input. -/
theorem roster_invariant_spec :
    (∀ (ps : List (Str × RosterVal)) (kv : Str × PlayerRec),
      kv ∈ normalize_roster ps →
      kv.1 ≠ [] ∧ (∀ c ∈ kv.1, isLowAlnum c = true) ∧
      (∃ a, kv.2.aliasF = some a ∧ a ≠ []) ∧
      (kv.2.hand = some ['R'] ∨ kv.2.hand = some ['L'])) ∧
    (∀ (raw : Str) (players : List (Str × PlayerRec)),
      hand_of raw players = ['R'] ∨ hand_of raw players = ['L']) := by
  constructor
  · intro ps kv h
    obtain ⟨h1, h2, ⟨a, ha1, ha2, _⟩, h4⟩ := normalize_roster_inv h
    exact ⟨h1, h2, ⟨a, ha1, ha2⟩, h4⟩
  · intro raw players
    unfold hand_of
    cases hd : dlookup players (normalize_name raw) with
    | none => left; rfl
    | some info =>
      simp only []
      by_cases hrl : (pyStrip (info.hand.getD ['R'])).map pyUpper = ['R'] ∨
          (pyStrip (info.hand.getD ['R'])).map pyUpper = ['L']
      · rw [if_pos hrl]
        exact hrl
      · rw [if_neg hrl]
        left
        rfl

/-- Witness for C10 at a concrete roster with a bare-string entry. -/
theorem roster_invariant_spec_witness :
    ("bob".toList, PlayerRec.mk (some ("Bobby".toList)) (some ['R'])).1 ≠ [] ∧
    (∀ c ∈ ("bob".toList, PlayerRec.mk (some ("Bobby".toList)) (some ['R'])).1,
      isLowAlnum c = true) ∧
    (∃ a, ("bob".toList, PlayerRec.mk (some ("Bobby".toList)) (some ['R'])).2.aliasF
      = some a ∧ a ≠ []) ∧
    (("bob".toList, PlayerRec.mk (some ("Bobby".toList)) (some ['R'])).2.hand
      = some ['R'] ∨
     ("bob".toList, PlayerRec.mk (some ("Bobby".toList)) (some ['R'])).2.hand
      = some ['L']) :=
  roster_invariant_spec.1 [("Bob".toList, RosterVal.bare ("Bobby".toList))]
    ("bob".toList, PlayerRec.mk (some ("Bobby".toList)) (some ['R'])) (by decide)

/-- Claim C9: roster-key normalization is idempotent, and names differing
only in case, diacritics, surrounding whitespace or non-alphanumeric
characters resolve to the same alias: `"É. Dupont"` and `"e dupont"`
agree through `to_alias` against every normalized roster. -/
theorem normalize_name_accent_spec :
    (∀ l : Str, normalize_name (normalize_name l) = normalize_name l) ∧
    normalize_name ("É. Dupont".toList) = normalize_name ("e dupont".toList) ∧
    (∀ ps : List (Str × RosterVal),
      to_alias ("É. Dupont".toList) (normalize_roster ps) =
      to_alias ("e dupont".toList) (normalize_roster ps)) := by
  have hk1 : normalize_name ("É. Dupont".toList) = "edupont".toList := by decide
  have hk2 : normalize_name ("e dupont".toList) = "edupont".toList := by decide
  refine ⟨normalize_name_idem, hk1.trans hk2.symm, ?_⟩
  intro ps
  unfold to_alias
  rw [hk1, hk2]
  cases hd : dlookup (normalize_roster ps) ("edupont".toList) with
  | none => rfl
  | some info =>
    simp only []
    obtain ⟨_, _, ⟨a, ha1, ha2, ha3⟩, _⟩ := normalize_roster_inv (dlookup_mem hd)
    rw [ha1]
    simp only [Option.getD_some]
    rw [ha3, if_pos ha2, if_pos ha2]

/-- Counterexample to C5 as stated: a name whose key is not in the roster
resolves to the sentinel `"UNKNOWN"`, not to the trimmed original name. -/
theorem to_alias_counterexample :
    to_alias ("Bob".toList) [] = "UNKNOWN".toList ∧
    "UNKNOWN".toList ≠ pyStrip ("Bob".toList) := by
  constructor
  · rfl
  · decide

/-- Claim C5 (amended): `to_alias` returns the roster-mapped alias when
the normalized key of the name is found (falling back to the trimmed
original name only when the stored alias strips to empty); when the key
is not found it returns the sentinel `"UNKNOWN"`. -/
theorem to_alias_spec (raw : Str) (players : List (Str × PlayerRec)) :
    (dlookup players (normalize_name raw) = none →
      to_alias raw players = "UNKNOWN".toList) ∧
    (∀ info, dlookup players (normalize_name raw) = some info →
      pyStrip (info.aliasF.getD []) ≠ [] →
      to_alias raw players = pyStrip (info.aliasF.getD [])) ∧
    (∀ info, dlookup players (normalize_name raw) = some info →
      pyStrip (info.aliasF.getD []) = [] →
      to_alias raw players = pyStrip raw) := by
  refine ⟨?_, ?_, ?_⟩
  · intro h
    unfold to_alias
    rw [h]
  · intro info h hne
    unfold to_alias
    rw [h]
    simp only []
    rw [if_pos hne]
  · intro info h he
    unfold to_alias
    rw [h]
    simp only []
    rw [if_neg (by simpa using he)]

/-- Witness for C5: the empty roster misses every key, and a stored alias
is returned verbatim. -/
theorem to_alias_spec_witness :
    to_alias ("Bob".toList) [] = "UNKNOWN".toList ∧
    to_alias ("Ann".toList) [("ann".toList, PlayerRec.mk (some ("Anna".toList)) none)]
      = pyStrip ((PlayerRec.mk (some ("Anna".toList)) none).aliasF.getD []) :=
  ⟨(to_alias_spec ("Bob".toList) []).1 rfl,
   (to_alias_spec ("Ann".toList)
      [("ann".toList, PlayerRec.mk (some ("Anna".toList)) none)]).2.1
      (PlayerRec.mk (some ("Anna".toList)) none) (by decide) (by decide)⟩

/-!  ## Player-name extraction (src/ingest.py, detect_player_name)

The source builds `{c.strip().lower(): c}` over the column names, walks a
fixed candidate key list, and for a matching column evaluates
`df[col].dropna().astype(str).iloc[0].strip()`.  `iloc[0]` on the empty
series left by `dropna` raises `IndexError`.  A column is modelled by its
name and list of optional string cells; the raised exception by
`Except.error`. -/

/-- One dataframe column: its label and its cells (`none` = NaN). -/
structure DFCol where
  name : Str
  vals : List (Option Str)
deriving DecidableEq, Repr

/-- The fixed candidate list of player-name columns. -/
def playerKeys : List Str :=
  ["player name".toList, "player".toList, "joueur".toList, "name".toList]

/-- Normalized column label, as used for the lookup dictionary. -/
def normColName (n : Str) : Str := (pyStrip n).map pyLower

/-- The column the dictionary associates to a candidate key (Python dict
comprehension: the last column with that normalized name wins). -/
def colFor (cols : List DFCol) (key : Str) : Option DFCol :=
  cols.reverse.find? (fun c => normColName c.name == key)

/-- Substring test, Python `pat in hay`. -/
def strContains (hay pat : Str) : Bool :=
  match hay with
  | [] => pat.isEmpty
  | _ :: t => pat.isPrefixOf hay || strContains t pat

/-- The known-name tokens matched against the filename. -/
def knownTokens : List Str :=
  ["licornekeeper".toList, "conre".toList, "treve".toList, "trêve".toList,
   "sportsman".toList, "cyberman".toList]

/-- The walk over the candidate player columns: the first non-empty
stripped value, `none` when every candidate is absent or empty-valued,
`Except.error` for the `IndexError` raised on a present but all-missing
column. -/
def firstColPlayer : List Str → List DFCol → Except Unit (Option Str)
  | [], _ => .ok none
  | k :: ks, cols =>
    match colFor cols k with
    | some col =>
      match (col.vals.filterMap id).head? with
      | some v =>
        if pyStrip v ≠ [] then .ok (some (pyStrip v)) else firstColPlayer ks cols
      | none => .error ()
    | none => firstColPlayer ks cols

/-- Model of `detect_player_name`. -/
def detect_player_name (cols : List DFCol) (filename : Option Str) :
    Except Unit Str :=
  match firstColPlayer playerKeys cols with
  | .error e => .error e
  | .ok (some v) => .ok v
  | .ok none =>
    match filename with
    | some f =>
      match knownTokens.find? (fun t => strContains (f.map pyLower) t) with
      | some t => .ok t
      | none => .ok ("UNKNOWN".toList)
    | none => .ok ("UNKNOWN".toList)

/-- Claim C6 is a code bug: on a table whose recognized player column
exists but holds no non-missing value, `detect_player_name` raises
(`iloc[0]` on an empty series) instead of falling back to `"UNKNOWN"`;
on the other documented paths it returns the first non-empty value, the
filename token, or the sentinel. -/
theorem detect_player_name_all_missing :
    detect_player_name [⟨"player".toList, [none, none]⟩] none = .error () ∧
    detect_player_name [⟨"Player".toList, [some (" Bob ".toList)]⟩] none
      = .ok ("Bob".toList) ∧
    detect_player_name [] (some ("export_Conre_2025.csv".toList))
      = .ok ("conre".toList) ∧
    detect_player_name [] none = .ok ("UNKNOWN".toList) := by
  refine ⟨rfl, rfl, rfl, rfl⟩

/-!  ## Vendor column canonicalization (src/generator.py, generate_all)

For each canonical field the source checks `if canon not in df2.columns`
and then, for every alias spelling in a fixed list, adds `ren[alias] =
canon` whenever the alias is present — the loop has no `break`, so every
matching alias column is renamed, not only the first.  `df2.rename`
maps each column label through the dictionary, so a table with two alias
spellings of one canonical field ends up with two columns of that name. -/

/-- The fixed rename table: canonical field names with their vendor alias
spellings, in source order. -/
def canonFamilies : List (String × List String) :=
  [("Carry", ["Carry Dist (m)", "Carry (m)", "CarryDistance", "Carry Distance"]),
   ("Offline", ["Offline (m)", "offline"]),
   ("BackSpin", ["Back Spin", "Backspin", "Spin Back", "Back Spin (rpm)"]),
   ("SpinAxis", ["Spin Axis", "Spin axis", "SpinAxis (deg)"]),
   ("Smash", ["Smash Factor", "SmashFactor"]),
   ("ClubSpeed", ["Club Speed", "Club Speed (mph)"]),
   ("BallSpeed", ["Ball Speed", "Ball Speed (mph)"]),
   ("VLA", ["VLA (deg)", "Vertical Launch Angle", "Vert Launch Angle"]),
   ("HLA", ["HLA (deg)", "Horizontal Launch Angle", "Hor Launch Angle"]),
   ("PeakHeight", ["Peak Height", "Peak Height (m)", "peak height"])]

/-- One step of building the `ren` dictionary for one canonical family. -/
def renStep (cols : List String) (ren : List (String × String))
    (fam : String × List String) : List (String × String) :=
  if fam.1 ∈ cols then ren
  else ren ++ (fam.2.filter (fun a => a ∈ cols)).map (fun a => (a, fam.1))

/-- The `ren` dictionary built by `generate_all` for a given column
list. -/
def buildRen (cols : List String) : List (String × String) :=
  canonFamilies.foldl (renStep cols) []

/-- `df2.rename(columns=ren)`: every column label is mapped through the
dictionary. -/
def renameCols (cols : List String) : List String :=
  cols.map (fun c => ((buildRen cols).lookup c).getD c)

/-- Reference lookup over the family list, walked in order. -/
def famLookup (fams : List (String × List String)) (cols : List String)
    (a : String) : Option String :=
  match fams with
  | [] => none
  | f :: fs =>
    if f.1 ∈ cols then famLookup fs cols a
    else if a ∈ f.2 ∧ a ∈ cols then some f.1
    else famLookup fs cols a

theorem lookup_cons_eq {α β : Type} [BEq α] (k : α) (v : β) (t : List (α × β)) (a : α) :
    ((k, v) :: t).lookup a = if a == k then some v else t.lookup a := by
  cases h : a == k <;> simp [List.lookup, h]

theorem lookup_append {α β : Type} [BEq α] (l1 l2 : List (α × β)) (a : α) :
    (l1 ++ l2).lookup a = ((l1.lookup a).or (l2.lookup a)) := by
  induction l1 with
  | nil => simp [List.lookup]
  | cons p t ih =>
    obtain ⟨k, v⟩ := p
    rw [List.cons_append, lookup_cons_eq, lookup_cons_eq]
    by_cases h : a == k
    · rw [if_pos h, if_pos h]
      rfl
    · rw [if_neg h, if_neg h, ih]

theorem famLookup_cons (f : String × List String) (fs : List (String × List String))
    (cols : List String) (a : String) :
    famLookup (f :: fs) cols a =
      if f.1 ∈ cols then famLookup fs cols a
      else if a ∈ f.2 ∧ a ∈ cols then some f.1
      else famLookup fs cols a := rfl

theorem filterMap_pair_lookup (xs cols : List String) (canon a : String) :
    ((xs.filter (fun x => x ∈ cols)).map (fun x => (x, canon))).lookup a =
      if a ∈ xs ∧ a ∈ cols then some canon else none := by
  induction xs with
  | nil => simp [List.lookup]
  | cons x t ih =>
    have hsplit : (if a ∈ t ∧ a ∈ cols then some canon else none) =
        (((t.filter (fun x => x ∈ cols)).map (fun x => (x, canon))).lookup a) := ih.symm
    by_cases hx : x ∈ cols
    · rw [List.filter_cons_of_pos (by simpa using hx), List.map_cons, lookup_cons_eq]
      by_cases hax : x = a
      · subst hax
        rw [if_pos (by simp), if_pos ⟨List.mem_cons_self _ _, hx⟩]
      · rw [if_neg (by simpa using Ne.symm hax), ih]
        by_cases hat : a ∈ t ∧ a ∈ cols
        · rw [if_pos hat, if_pos ⟨List.mem_cons_of_mem _ hat.1, hat.2⟩]
        · rw [if_neg hat, if_neg (by
            rintro ⟨h1, h2⟩
            rcases List.mem_cons.mp h1 with h | h
            · exact hax h.symm
            · exact hat ⟨h, h2⟩)]
    · rw [List.filter_cons_of_neg (by simpa using hx), ih]
      by_cases hat : a ∈ t ∧ a ∈ cols
      · rw [if_pos hat, if_pos ⟨List.mem_cons_of_mem _ hat.1, hat.2⟩]
      · rw [if_neg hat, if_neg (by
          rintro ⟨h1, h2⟩
          rcases List.mem_cons.mp h1 with h | h
          · subst h
            exact hx h2
          · exact hat ⟨h, h2⟩)]

theorem foldl_renStep_lookup (fams : List (String × List String))
    (cols : List String) (acc : List (String × String)) (a : String) :
    ((fams.foldl (renStep cols) acc).lookup a) =
      ((acc.lookup a).or (famLookup fams cols a)) := by
  induction fams generalizing acc with
  | nil => simp [famLookup]
  | cons f fs ih =>
    simp only [List.foldl_cons]
    rw [ih, famLookup_cons]
    unfold renStep
    by_cases hc : f.1 ∈ cols
    · rw [if_pos hc, if_pos hc]
    · rw [if_neg hc, if_neg hc]
      rw [lookup_append, filterMap_pair_lookup]
      by_cases ha : a ∈ f.2 ∧ a ∈ cols
      · rw [if_pos ha, if_pos ha]
        cases acc.lookup a <;> simp [Option.or]
      · rw [if_neg ha, if_neg ha]
        simp

theorem buildRen_lookup (cols : List String) (a : String) :
    (buildRen cols).lookup a = famLookup canonFamilies cols a := by
  unfold buildRen
  rw [foldl_renStep_lookup]
  simp [List.lookup]

theorem famLookup_none (fams : List (String × List String)) (cols : List String)
    (a : String) (h : ∀ f ∈ fams, a ∉ f.2) : famLookup fams cols a = none := by
  induction fams with
  | nil => rfl
  | cons f fs ih =>
    rw [famLookup_cons]
    have hf := h f (by simp)
    have hrest := fun g hg => h g (List.mem_cons_of_mem _ hg)
    by_cases hc : f.1 ∈ cols
    · rw [if_pos hc]
      exact ih hrest
    · rw [if_neg hc, if_neg (fun hh => hf hh.1)]
      exact ih hrest

theorem famLookup_append_skip (pre fams2 : List (String × List String))
    (cols : List String) (a : String) (h : ∀ f ∈ pre, a ∉ f.2) :
    famLookup (pre ++ fams2) cols a = famLookup fams2 cols a := by
  induction pre with
  | nil => rfl
  | cons f fs ih =>
    rw [List.cons_append, famLookup_cons]
    have hf := h f (by simp)
    have hrest := fun g hg => h g (List.mem_cons_of_mem _ hg)
    by_cases hc : f.1 ∈ cols
    · rw [if_pos hc]
      exact ih hrest
    · rw [if_neg hc, if_neg (fun hh => hf hh.1)]
      exact ih hrest

theorem canonFamilies_nodup : canonFamilies.Nodup := by decide

theorem canonFamilies_alias_disjoint :
    ∀ f ∈ canonFamilies, ∀ g ∈ canonFamilies, f ≠ g → ∀ x ∈ f.2, x ∉ g.2 := by
  decide

theorem canonFamilies_canon_not_alias :
    ∀ f ∈ canonFamilies, ∀ g ∈ canonFamilies, f.1 ∉ g.2 := by
  decide

/-- Counterexample to C7 as stated: a table carrying the two alias
spellings `"Carry Dist (m)"` and `"Carry (m)"` of the canonical field
`Carry` ends up with two columns named `Carry`, not exactly one. -/
theorem rename_alias_counterexample :
    renameCols ["Carry Dist (m)", "Carry (m)"] = ["Carry", "Carry"] ∧
    (renameCols ["Carry Dist (m)", "Carry (m)"]).count "Carry" = 2 := by
  constructor
  · rfl
  · rfl

/-- Claim C7 (amended): during canonicalization an alias column is renamed
only when the canonical name is not already a column, and in that case
every matching alias column — not only the first — is renamed to the
canonical name (so two alias spellings of one field yield two columns of
that name); columns bearing a canonical name are never renamed. -/
theorem rename_alias_spec :
    (∀ (cols : List String) fam, fam ∈ canonFamilies → fam.1 ∈ cols →
      ∀ a ∈ fam.2, (buildRen cols).lookup a = none) ∧
    (∀ (cols : List String) fam, fam ∈ canonFamilies → fam.1 ∉ cols →
      ∀ a ∈ fam.2, a ∈ cols → (buildRen cols).lookup a = some fam.1) ∧
    (∀ (cols : List String) fam, fam ∈ canonFamilies →
      (buildRen cols).lookup fam.1 = none) := by
  have hdisj := canonFamilies_alias_disjoint
  refine ⟨?_, ?_, ?_⟩
  · intro cols fam hfam hc a ha
    rw [buildRen_lookup]
    obtain ⟨pre, post, hsplit⟩ := List.append_of_mem hfam
    have hnd : (pre ++ fam :: post).Nodup := hsplit ▸ canonFamilies_nodup
    have hnotpre : fam ∉ pre := fun hmem =>
      (List.disjoint_of_nodup_append hnd) hmem (List.mem_cons_self _ _)
    have hpre : ∀ f ∈ pre, a ∉ f.2 := by
      intro f hf
      have hfc : f ∈ canonFamilies := hsplit ▸ List.mem_append_left _ hf
      have hne : fam ≠ f := fun he => hnotpre (he ▸ hf)
      exact fun hx => hdisj fam hfam f hfc hne a ha hx
    rw [hsplit, famLookup_append_skip _ _ _ _ hpre, famLookup_cons, if_pos hc]
    apply famLookup_none
    intro g hg hx
    have hgc : g ∈ canonFamilies :=
      hsplit ▸ List.mem_append_right _ (List.mem_cons_of_mem _ hg)
    have hnotpost : fam ∉ post := by
      intro hmem
      have := List.nodup_append.mp hnd
      exact (List.nodup_cons.mp this.2.1).1 hmem
    have hne : fam ≠ g := fun he => hnotpost (he ▸ hg)
    exact hdisj fam hfam g hgc hne a ha hx
  · intro cols fam hfam hc a ha hacols
    rw [buildRen_lookup]
    obtain ⟨pre, post, hsplit⟩ := List.append_of_mem hfam
    have hnd : (pre ++ fam :: post).Nodup := hsplit ▸ canonFamilies_nodup
    have hnotpre : fam ∉ pre := fun hmem =>
      (List.disjoint_of_nodup_append hnd) hmem (List.mem_cons_self _ _)
    have hpre : ∀ f ∈ pre, a ∉ f.2 := by
      intro f hf
      have hfc : f ∈ canonFamilies := hsplit ▸ List.mem_append_left _ hf
      have hne : fam ≠ f := fun he => hnotpre (he ▸ hf)
      exact fun hx => hdisj fam hfam f hfc hne a ha hx
    rw [hsplit, famLookup_append_skip _ _ _ _ hpre, famLookup_cons, if_neg hc,
      if_pos ⟨ha, hacols⟩]
  · intro cols fam hfam
    rw [buildRen_lookup]
    apply famLookup_none
    intro g hg
    exact canonFamilies_canon_not_alias fam hfam g hg

/-- Witness for C7: with only the first Carry alias present it is renamed
to `Carry`; when `Carry` is already present the alias keeps its name. -/
theorem rename_alias_spec_witness :
    (buildRen ["Carry Dist (m)"]).lookup "Carry Dist (m)" = some "Carry" ∧
    (buildRen ["Carry", "Carry Dist (m)"]).lookup "Carry Dist (m)" = none :=
  ⟨rename_alias_spec.2.1 ["Carry Dist (m)"]
      ("Carry", ["Carry Dist (m)", "Carry (m)", "CarryDistance", "Carry Distance"])
      (by decide) (by decide) "Carry Dist (m)" (by decide) (by decide),
   rename_alias_spec.1 ["Carry", "Carry Dist (m)"]
      ("Carry", ["Carry Dist (m)", "Carry (m)", "CarryDistance", "Carry Distance"])
      (by decide) (by decide) "Carry Dist (m)" (by decide)⟩

/-!  ## Signed L/R value decoder (src/generator.py, _parse_lr)

`_parse_lr` strips, upper-cases and removes degree signs, returns NaN for
the empty string or `"NAN"`, then tries `float(s.replace(",", "."))`, then
the regex `^\s*([+-]?\d+(?:[.,]\d+)?)\s*([LR])\s*$` (the second no-space
regex is subsumed by the first), negating for `L`.  Python `float`
accepts decimal literals with underscores between digits, an exponent and
the words `inf`/`infinity`/`nan`, so the value domain is a finite rational,
a signed infinity, or NaN (missing). -/

/-- The value of one decoded cell: a finite rational or a signed infinity
(`none` in the surrounding `Option` is NaN/missing). -/
inductive PyVal where
  | fin (q : ℚ)
  | inf (pos : Bool)
deriving DecidableEq, Repr

/-- Outcome of Python `float(s)`: a value, a NaN, or a `ValueError`
(the surrounding `none`). -/
inductive PyParse where
  | val (v : PyVal)
  | nanv
deriving DecidableEq, Repr

/-- Numeric value of a digit string. -/
def digitsNat (l : Str) : ℕ := l.foldl (fun a c => a * 10 + (c.toNat - 48)) 0

/-- The digits of a digit-part (dropping underscore separators). -/
def digitsOf (l : Str) : Str := l.filter isDigitC

/-- Split a string at the first occurrence of a separator. -/
def splitOnce (sep : Char) : Str → Option (Str × Str)
  | [] => none
  | c :: r =>
    if c = sep then some ([], r)
    else (splitOnce sep r).map (fun p => (c :: p.1, p.2))

/-- No two adjacent underscores. -/
def noDUnd : Str → Bool
  | [] => true
  | [_] => true
  | c :: c2 :: r => !(c == '_' && c2 == '_') && noDUnd (c2 :: r)

/-- A Python `digitpart`: digits with single underscores strictly between
digits. -/
def isDigitpart (l : Str) : Bool :=
  !l.isEmpty && l.all (fun c => isDigitC c || c == '_')
    && (match l.head? with | some c => isDigitC c | none => false)
    && (match l.getLast? with | some c => isDigitC c | none => false)
    && noDUnd l

/-- Value of the mantissa of a Python float literal (no sign, no
exponent), or `none` when malformed. -/
def mantissa (l : Str) : Option ℚ :=
  match splitOnce '.' l with
  | none => if isDigitpart l then some (digitsNat (digitsOf l) : ℚ) else none
  | some (ip, fp) =>
    if (isDigitpart ip = true ∧ (fp = [] ∨ isDigitpart fp = true))
        ∨ (ip = [] ∧ isDigitpart fp = true) then
      some ((digitsNat (digitsOf ip) : ℚ)
        + (digitsNat (digitsOf fp) : ℚ) / (10 : ℚ) ^ (digitsOf fp).length)
    else none

/-- Value of an unsigned Python float literal with optional exponent. -/
def decNumber (l : Str) : Option ℚ :=
  match splitOnce 'E' l with
  | none => mantissa l
  | some (m, e) =>
    let se : Bool × Str :=
      match e with
      | c :: r => if c = '+' then (true, r) else if c = '-' then (false, r) else (true, e)
      | [] => (true, [])
    match mantissa m with
    | some q =>
      if isDigitpart se.2 then
        some (if se.1 then q * (10 : ℚ) ^ digitsNat (digitsOf se.2)
              else q / (10 : ℚ) ^ digitsNat (digitsOf se.2))
      else none
    | none => none

/-- Strip one optional leading sign. -/
def signSplit (t : Str) : Bool × Str :=
  match t with
  | [] => (true, [])
  | c :: r => if c = '+' then (true, r) else if c = '-' then (false, r) else (true, c :: r)

/-- Model of Python `float(s)` on an upper-cased string. -/
def pyFloat (l : Str) : Option PyParse :=
  let sb := signSplit (pyStrip l)
  if sb.2 = "INF".toList ∨ sb.2 = "INFINITY".toList then some (.val (.inf sb.1))
  else if sb.2 = "NAN".toList then some .nanv
  else
    match decNumber sb.2 with
    | some q => some (.val (.fin (if sb.1 then q else -q)))
    | none => none

/-- Leading-whitespace skip and optional sign of the regex: the sign value
and the remainder. -/
def lrSign (l : Str) : ℚ × Str :=
  match l.dropWhile isSpc with
  | c :: r => if c = '+' then (1, r) else if c = '-' then (-1, r) else (1, c :: r)
  | [] => (1, [])

/-- The `\d+(?:[.,]\d+)?` part of the regex: integer digits, fractional
digits (empty when the optional group is not taken) and the remainder. -/
def lrNum (l : Str) : Option (Str × Str × Str) :=
  let ip := l.takeWhile isDigitC
  let l3 := l.dropWhile isDigitC
  if ip = [] then none
  else
    match l3 with
    | c :: r =>
      if (c = '.' ∨ c = ',') ∧ r.takeWhile isDigitC ≠ [] then
        some (ip, r.takeWhile isDigitC, r.dropWhile isDigitC)
      else some (ip, [], l3)
    | [] => some (ip, [], [])

/-- The `\s*([LR])\s*$` tail of the regex. -/
def lrSuffixMatch (l : Str) : Option Char :=
  match l.dropWhile isSpc with
  | c :: r => if (c = 'L' ∨ c = 'R') ∧ r.dropWhile isSpc = [] then some c else none
  | [] => none

/-- Model of the regex `^\s*([+-]?\d+(?:[.,]\d+)?)\s*([LR])\s*$`: the
signed magnitude and whether the suffix is `L`. -/
def lrMatch (l : Str) : Option (ℚ × Bool) :=
  let sg := lrSign l
  match lrNum sg.2 with
  | some (ip, fp, rest) =>
    match lrSuffixMatch rest with
    | some c =>
      some (sg.1 * ((digitsNat ip : ℚ)
        + (digitsNat fp : ℚ) / (10 : ℚ) ^ fp.length), c == 'L')
    | none => none
  | none => none

/-- Remove every degree sign, `s.replace("°", "")`. -/
def stripDeg (l : Str) : Str := l.filter (fun c => c != '°')

/-- Replace commas by dots, `s.replace(",", ".")`. -/
def commaDot (l : Str) : Str := l.map (fun c => if c = ',' then '.' else c)

/-- Model of `_parse_lr` on a string cell: the decoded signed value
(`none` = NaN/missing). -/
def parse_lr (x : Str) : Option PyVal :=
  let s := stripDeg ((pyStrip x).map pyUpper)
  if s = [] ∨ s = "NAN".toList then none
  else
    match pyFloat (commaDot s) with
    | some (.val v) => some v
    | some .nanv => none
    | none =>
      match lrMatch s with
      | some p => some (.fin (if p.2 then -p.1 else p.1))
      | none => none

theorem digit_ne {c : Char} (h : isDigitC c = true) {d : Char}
    (hd : isDigitC d = false) : c ≠ d := by
  intro he
  subst he
  rw [h] at hd
  cases hd

theorem digit_not_spc {c : Char} (h : isDigitC c = true) : isSpc c = false := by
  simp [isDigitC] at h
  simp [isSpc]
  omega

theorem digit_pyUpper {c : Char} (h : isDigitC c = true) : pyUpper c = c := by
  have hb : ¬ (97 ≤ c.toNat ∧ c.toNat ≤ 122) := by
    simp [isDigitC] at h
    omega
  rw [pyUpper, if_neg hb]
  unfold accUpper
  split <;> simp_all [isDigitC]

theorem head?_append_cons {α : Type} (a : List α) (c : α) (t : List α)
    (h : a = []) : (a ++ c :: t).head? = some c := by
  subst h
  rfl

theorem takeWhile_append_all {p : Char → Bool} {a b : Str}
    (ha : ∀ c ∈ a, p c = true) (hb : ∀ c, b.head? = some c → p c = false) :
    (a ++ b).takeWhile p = a ∧ (a ++ b).dropWhile p = b := by
  induction a with
  | nil =>
    simp only [List.nil_append]
    constructor
    · cases b with
      | nil => rfl
      | cons x xs => exact List.takeWhile_cons_of_neg (by simp [hb x rfl])
    · exact dropWhile_eq_self_of_head hb
  | cons x xs ih =>
    have hx := ha x (by simp)
    have hrest := ih (fun c hc => ha c (List.mem_cons_of_mem _ hc))
    simp only [List.cons_append]
    rw [List.takeWhile_cons_of_pos hx, List.dropWhile_cons_of_pos hx]
    exact ⟨by rw [hrest.1], hrest.2⟩

theorem splitOnce_none {sep : Char} {l : Str} (h : ∀ c ∈ l, c ≠ sep) :
    splitOnce sep l = none := by
  induction l with
  | nil => rfl
  | cons c r ih =>
    unfold splitOnce
    rw [if_neg (h c (by simp))]
    rw [ih (fun x hx => h x (List.mem_cons_of_mem _ hx))]
    rfl

theorem splitOnce_append {sep : Char} {a : Str} (b : Str) (h : ∀ c ∈ a, c ≠ sep) :
    splitOnce sep (a ++ sep :: b) = some (a, b) := by
  induction a with
  | nil =>
    simp only [List.nil_append]
    unfold splitOnce
    rw [if_pos rfl]
  | cons c r ih =>
    simp only [List.cons_append]
    unfold splitOnce
    rw [if_neg (h c (by simp)), ih (fun x hx => h x (List.mem_cons_of_mem _ hx))]
    rfl

theorem getLast?_mem_list {α : Type} {l : List α} {x : α}
    (h : l.getLast? = some x) : x ∈ l := by
  have h2 : l.reverse.head? = some x := by rwa [List.head?_reverse]
  simpa using head?_mem h2

theorem noDUnd_of_all_digits {l : Str} (h : ∀ c ∈ l, isDigitC c = true) :
    noDUnd l = true := by
  induction l with
  | nil => rfl
  | cons c r ih =>
    have hc := h c (by simp)
    have hcu : (c == '_') = false := by
      simp [digit_ne hc (show isDigitC '_' = false by decide)]
    have hr := ih (fun x hx => h x (List.mem_cons_of_mem _ hx))
    cases r with
    | nil => rfl
    | cons c2 r2 =>
      unfold noDUnd
      rw [hcu, hr]
      rfl

theorem isDigitpart_of_digits {l : Str} (hne : l ≠ [])
    (h : ∀ c ∈ l, isDigitC c = true) : isDigitpart l = true := by
  unfold isDigitpart
  obtain ⟨c, r, rfl⟩ := List.exists_cons_of_ne_nil hne
  have hc := h c (by simp)
  have hall : (c :: r).all (fun x => isDigitC x || x == '_') = true := by
    rw [List.all_eq_true]
    intro x hx
    rw [h x hx]
    rfl
  have hnd := noDUnd_of_all_digits h
  cases hg : (c :: r).getLast? with
  | none => simp at hg
  | some x =>
    have hx : isDigitC x = true := h x (getLast?_mem_list hg)
    simp [hall, hc, hnd, hg, hx]

theorem isDigitpart_false_of_mem {l : Str} {c : Char} (hc : c ∈ l)
    (h : (isDigitC c || c == '_') = false) : isDigitpart l = false := by
  unfold isDigitpart
  have : l.all (fun x => isDigitC x || x == '_') = false := by
    rw [List.all_eq_false]
    exact ⟨c, hc, by simp [h]⟩
  rw [this]
  simp

theorem pyStrip_eq_self_of_ends {l : Str}
    (h1 : ∀ c, l.head? = some c → isSpc c = false)
    (h2 : ∀ c, l.getLast? = some c → isSpc c = false) : pyStrip l = l := by
  have ht : trimL l = l := dropWhile_eq_self_of_head h1
  unfold pyStrip
  rw [ht]
  unfold trimR
  rw [dropWhile_eq_self_of_head, List.reverse_reverse]
  intro c hc
  exact h2 c (by rwa [List.head?_reverse] at hc)

/-- Sign characters of an optional sign. -/
def sgnChars : Option Bool → Str
  | none => []
  | some true => ['+']
  | some false => ['-']

/-- Numeric value of an optional sign. -/
def sgnVal : Option Bool → ℚ
  | some false => -1
  | _ => 1

/-- The magnitude denoted by an integer digit part and a fractional digit
part. -/
def ratOfParts (ip fp : Str) : ℚ :=
  (digitsNat ip : ℚ) + (digitsNat fp : ℚ) / (10 : ℚ) ^ fp.length

/-- The suffix letter in the requested case. -/
def lrSuffix (low isL : Bool) : Char :=
  if isL then (if low then 'l' else 'L') else (if low then 'r' else 'R')

/-- A raw `"<sign><digits>[.,]<digits>[°][ ]<L|R>"` cell. -/
def lrInput (sg : Option Bool) (ip fp : Str) (comma dg sp : Bool) (suf : Char) : Str :=
  sgnChars sg ++ ip ++ (if fp = [] then [] else (if comma then ',' else '.') :: fp)
    ++ (if dg then ['°'] else []) ++ (if sp then [' '] else []) ++ [suf]

/-- A bare signed number cell, decimal comma and degree sign tolerated. -/
def bareInput (sg : Option Bool) (ip fp : Str) (comma dg : Bool) : Str :=
  sgnChars sg ++ ip ++ (if fp = [] then [] else (if comma then ',' else '.') :: fp)
    ++ (if dg then ['°'] else [])

theorem map_filter_digit_chunks {ip : Str} (hipd : ∀ c ∈ ip, isDigitC c = true) :
    ip.map pyUpper = ip ∧ ip.filter (fun c => c != '°') = ip := by
  constructor
  · exact map_id_of_fix (fun c hc => digit_pyUpper (hipd c hc))
  · rw [List.filter_eq_self]
    intro c hc
    simp [digit_ne (hipd c hc) (show isDigitC '°' = false by decide)]

theorem pyStrip_lrInput (sg : Option Bool) (ip fp : Str) (comma dg sp low isL : Bool)
    (hip : ip ≠ []) (hipd : ∀ c ∈ ip, isDigitC c = true) :
    pyStrip (lrInput sg ip fp comma dg sp (lrSuffix low isL)) =
      lrInput sg ip fp comma dg sp (lrSuffix low isL) := by
  apply pyStrip_eq_self_of_ends
  · intro c hc
    obtain ⟨c0, ip2, rfl⟩ := List.exists_cons_of_ne_nil hip
    cases sg with
    | none =>
      simp [lrInput, sgnChars] at hc
      rw [← hc]
      exact digit_not_spc (hipd c0 (by simp))
    | some b =>
      cases b <;> simp [lrInput, sgnChars] at hc <;> rw [← hc] <;> decide
  · intro c hc
    rw [lrInput, List.getLast?_concat] at hc
    have : c = lrSuffix low isL := by
      injection hc
      simp_all
    rw [this]
    cases low <;> cases isL <;> decide

theorem clean_lrInput (sg : Option Bool) (ip fp : Str) (comma dg sp low isL : Bool)
    (hip : ip ≠ []) (hipd : ∀ c ∈ ip, isDigitC c = true)
    (hfpd : ∀ c ∈ fp, isDigitC c = true) :
    stripDeg ((pyStrip (lrInput sg ip fp comma dg sp (lrSuffix low isL))).map pyUpper) =
      sgnChars sg ++ ip ++ (if fp = [] then [] else (if comma then ',' else '.') :: fp)
        ++ (if sp then [' '] else []) ++ [if isL then 'L' else 'R'] := by
  rw [pyStrip_lrInput sg ip fp comma dg sp low isL hip hipd]
  obtain ⟨hm2, hf2⟩ := map_filter_digit_chunks hipd
  obtain ⟨hm2f, hf2f⟩ := map_filter_digit_chunks hfpd
  have hm1 : (sgnChars sg).map pyUpper = sgnChars sg := by
    cases sg with
    | none => rfl
    | some b => cases b <;> decide
  have hf1 : (sgnChars sg).filter (fun c => c != '°') = sgnChars sg := by
    cases sg with
    | none => rfl
    | some b => cases b <;> decide
  have hm3 : (if fp = [] then [] else (if comma then ',' else '.') :: fp).map pyUpper
      = (if fp = [] then [] else (if comma then ',' else '.') :: fp) := by
    by_cases hfp : fp = []
    · simp [hfp]
    · simp only [if_neg hfp, List.map_cons, hm2f]
      cases comma <;> simp <;> decide
  have hf3 : (if fp = [] then [] else (if comma then ',' else '.') :: fp).filter
        (fun c => c != '°')
      = (if fp = [] then [] else (if comma then ',' else '.') :: fp) := by
    by_cases hfp : fp = []
    · simp [hfp]
    · simp only [if_neg hfp, List.filter_cons]
      cases comma <;> simp [hf2f]
  have hm4 : (if dg then ['°'] else []).map pyUpper = (if dg then ['°'] else []) := by
    cases dg <;> decide
  have hf4 : (if dg then ['°'] else []).filter (fun c => c != '°') = [] := by
    cases dg <;> decide
  have hm5 : (if sp then [' '] else []).map pyUpper = (if sp then [' '] else []) := by
    cases sp <;> decide
  have hf5 : (if sp then [' '] else []).filter (fun c => c != '°')
      = (if sp then [' '] else []) := by
    cases sp <;> decide
  have hm6 : [lrSuffix low isL].map pyUpper = [if isL then 'L' else 'R'] := by
    cases low <;> cases isL <;> decide
  have hf6 : [(if isL then 'L' else 'R')].filter (fun c => c != '°')
      = [if isL then 'L' else 'R'] := by
    cases isL <;> decide
  unfold lrInput stripDeg
  rw [List.map_append, List.map_append, List.map_append, List.map_append,
    List.map_append, hm1, hm2, hm3, hm4, hm5, hm6,
    List.filter_append, List.filter_append, List.filter_append, List.filter_append,
    List.filter_append, hf1, hf2, hf3, hf4, hf5, hf6, List.append_nil]

theorem getLast?_digits {ip : Str}
    (hipd : ∀ c ∈ ip, isDigitC c = true) :
    ∀ c, ip.getLast? = some c → isSpc c = false := by
  intro c hc
  exact digit_not_spc (hipd c (getLast?_mem_list hc))

theorem pyStrip_bareInput (sg : Option Bool) (ip fp : Str) (comma dg : Bool)
    (hip : ip ≠ []) (hipd : ∀ c ∈ ip, isDigitC c = true)
    (hfpd : ∀ c ∈ fp, isDigitC c = true) :
    pyStrip (bareInput sg ip fp comma dg) = bareInput sg ip fp comma dg := by
  apply pyStrip_eq_self_of_ends
  · intro c hc
    obtain ⟨c0, ip2, rfl⟩ := List.exists_cons_of_ne_nil hip
    cases sg with
    | none =>
      simp [bareInput, sgnChars] at hc
      rw [← hc]
      exact digit_not_spc (hipd c0 (by simp))
    | some b =>
      cases b <;> simp [bareInput, sgnChars] at hc <;> rw [← hc] <;> decide
  · intro c hc
    cases dg with
    | true =>
      rw [bareInput] at hc
      rw [if_pos rfl, List.getLast?_concat] at hc
      have h9 : c = '°' := by
        injection hc with h
        exact h.symm
      rw [h9]
      decide
    | false =>
      rw [bareInput] at hc
      rw [if_neg (by decide : ¬ (false = true)), List.append_nil] at hc
      by_cases hfp : fp = []
      · rw [if_pos hfp] at hc
        rw [List.append_nil, List.getLast?_append_of_ne_nil _ hip] at hc
        exact getLast?_digits hipd c hc
      · rw [if_neg hfp] at hc
        have hfpne : fp ≠ [] := hfp
        rw [List.getLast?_append_of_ne_nil _ (by simp)] at hc
        have h8 : fp.getLast? = some c := by
          rw [show ((if comma = true then ',' else '.') :: fp)
              = [(if comma = true then ',' else '.')] ++ fp from rfl,
            List.getLast?_append_of_ne_nil _ hfpne] at hc
          exact hc
        exact getLast?_digits hfpd c h8

theorem clean_bareInput (sg : Option Bool) (ip fp : Str) (comma dg : Bool)
    (hip : ip ≠ []) (hipd : ∀ c ∈ ip, isDigitC c = true)
    (hfpd : ∀ c ∈ fp, isDigitC c = true) :
    stripDeg ((pyStrip (bareInput sg ip fp comma dg)).map pyUpper) =
      sgnChars sg ++ ip ++ (if fp = [] then [] else (if comma then ',' else '.') :: fp) := by
  rw [pyStrip_bareInput sg ip fp comma dg hip hipd hfpd]
  obtain ⟨hm2, hf2⟩ := map_filter_digit_chunks hipd
  obtain ⟨hm2f, hf2f⟩ := map_filter_digit_chunks hfpd
  have hm1 : (sgnChars sg).map pyUpper = sgnChars sg := by
    cases sg with
    | none => rfl
    | some b => cases b <;> decide
  have hf1 : (sgnChars sg).filter (fun c => c != '°') = sgnChars sg := by
    cases sg with
    | none => rfl
    | some b => cases b <;> decide
  have hm3 : (if fp = [] then [] else (if comma then ',' else '.') :: fp).map pyUpper
      = (if fp = [] then [] else (if comma then ',' else '.') :: fp) := by
    by_cases hfp : fp = []
    · simp [hfp]
    · simp only [if_neg hfp, List.map_cons, hm2f]
      cases comma <;> simp <;> decide
  have hf3 : (if fp = [] then [] else (if comma then ',' else '.') :: fp).filter
        (fun c => c != '°')
      = (if fp = [] then [] else (if comma then ',' else '.') :: fp) := by
    by_cases hfp : fp = []
    · simp [hfp]
    · simp only [if_neg hfp, List.filter_cons]
      cases comma <;> simp [hf2f]
  have hm4 : (if dg then ['°'] else []).map pyUpper = (if dg then ['°'] else []) := by
    cases dg <;> decide
  have hf4 : (if dg then ['°'] else []).filter (fun c => c != '°') = [] := by
    cases dg <;> decide
  unfold bareInput stripDeg
  rw [List.map_append, List.map_append, List.map_append,
    hm1, hm2, hm3, hm4,
    List.filter_append, List.filter_append, List.filter_append,
    hf1, hf2, hf3, hf4, List.append_nil]

theorem ratOfParts_nil (ip : Str) : ratOfParts ip [] = (digitsNat ip : ℚ) := by
  simp [ratOfParts, digitsNat]

theorem digitsOf_digits {l : Str} (h : ∀ c ∈ l, isDigitC c = true) :
    digitsOf l = l := by
  unfold digitsOf
  rw [List.filter_eq_self]
  exact h

theorem signSplit_digit {c0 : Char} (r : Str) (h : isDigitC c0 = true) :
    signSplit (c0 :: r) = (true, c0 :: r) := by
  simp only [signSplit]
  rw [if_neg (digit_ne h (by decide)), if_neg (digit_ne h (by decide))]

theorem mantissa_digits {ip fp : Str}
    (hip : ip ≠ []) (hipd : ∀ c ∈ ip, isDigitC c = true)
    (hfpd : ∀ c ∈ fp, isDigitC c = true) :
    mantissa (ip ++ (if fp = [] then [] else '.' :: fp)) = some (ratOfParts ip fp) := by
  by_cases hfp : fp = []
  · subst hfp
    rw [if_pos rfl, List.append_nil]
    unfold mantissa
    rw [splitOnce_none (fun c hc => digit_ne (hipd c hc) (by decide))]
    simp only []
    rw [if_pos (isDigitpart_of_digits hip hipd), digitsOf_digits hipd, ratOfParts_nil]
  · rw [if_neg hfp]
    unfold mantissa
    rw [splitOnce_append fp (fun c hc => digit_ne (hipd c hc) (by decide))]
    simp only []
    rw [if_pos (Or.inl ⟨isDigitpart_of_digits hip hipd,
      Or.inr (isDigitpart_of_digits hfp hfpd)⟩)]
    rw [digitsOf_digits hipd, digitsOf_digits hfpd]
    rfl

theorem decNumber_digits {ip fp : Str}
    (hip : ip ≠ []) (hipd : ∀ c ∈ ip, isDigitC c = true)
    (hfpd : ∀ c ∈ fp, isDigitC c = true) :
    decNumber (ip ++ (if fp = [] then [] else '.' :: fp)) = some (ratOfParts ip fp) := by
  unfold decNumber
  rw [splitOnce_none (by
    intro c hc
    rcases List.mem_append.mp hc with h | h
    · exact digit_ne (hipd c h) (by decide)
    · by_cases hfp : fp = []
      · rw [if_pos hfp] at h
        simp at h
      · rw [if_neg hfp] at h
        rcases List.mem_cons.mp h with h2 | h2
        · subst h2
          decide
        · exact digit_ne (hfpd c h2) (by decide))]
  exact mantissa_digits hip hipd hfpd

theorem pyFloat_bare (sg : Option Bool) (ip fp : Str)
    (hip : ip ≠ []) (hipd : ∀ c ∈ ip, isDigitC c = true)
    (hfpd : ∀ c ∈ fp, isDigitC c = true) :
    pyFloat (sgnChars sg ++ ip ++ (if fp = [] then [] else '.' :: fp)) =
      some (.val (.fin (sgnVal sg * ratOfParts ip fp))) := by
  obtain ⟨c0, ip2, hipeq⟩ := List.exists_cons_of_ne_nil hip
  have hc0 : isDigitC c0 = true := hipd c0 (by rw [hipeq]; simp)
  have hstrip : pyStrip (sgnChars sg ++ ip ++ (if fp = [] then [] else '.' :: fp)) =
      sgnChars sg ++ ip ++ (if fp = [] then [] else '.' :: fp) := by
    have hb := pyStrip_bareInput sg ip fp false false hip hipd hfpd
    unfold bareInput at hb
    simp only [show (false = true) = False by simp, if_false, List.append_nil] at hb
    exact hb
  have hsign : signSplit (sgnChars sg ++ ip ++ (if fp = [] then [] else '.' :: fp)) =
      ((sg ≠ some false : Bool), ip ++ (if fp = [] then [] else '.' :: fp)) := by
    cases sg with
    | none =>
      rw [show sgnChars none = [] from rfl, List.nil_append, hipeq, List.cons_append]
      rw [signSplit_digit _ hc0]
      rw [← List.cons_append, ← hipeq]
      rfl
    | some b =>
      cases b with
      | true =>
        rw [show sgnChars (some true) = ['+'] from rfl]
        rfl
      | false =>
        rw [show sgnChars (some false) = ['-'] from rfl]
        rfl
  obtain ⟨t, hbody⟩ : ∃ t, ip ++ (if fp = [] then [] else '.' :: fp) = c0 :: t :=
    ⟨ip2 ++ _, by rw [hipeq, List.cons_append]⟩
  unfold pyFloat
  simp only []
  rw [hstrip, hsign]
  simp only []
  rw [hbody]
  rw [if_neg (by
    rw [show "INF".toList = ['I', 'N', 'F'] from rfl,
      show "INFINITY".toList = ['I', 'N', 'F', 'I', 'N', 'I', 'T', 'Y'] from rfl]
    rintro (hq | hq) <;> (injection hq with h1 h2; exact digit_ne hc0 (by decide) h1))]
  rw [if_neg (by
    rw [show "NAN".toList = ['N', 'A', 'N'] from rfl]
    intro hq
    injection hq with h1 h2
    exact digit_ne hc0 (by decide) h1)]
  rw [← hbody, decNumber_digits hip hipd hfpd]
  cases sg with
  | none =>
    rw [show ((none : Option Bool) ≠ some false : Bool) = true by decide]
    simp [sgnVal]
  | some b =>
    cases b with
    | true =>
      rw [show ((some true : Option Bool) ≠ some false : Bool) = true by decide]
      simp [sgnVal]
    | false =>
      rw [show ((some false : Option Bool) ≠ some false : Bool) = false by decide]
      simp [sgnVal]

theorem lrSign_eq (sg : Option Bool) (body : Str)
    (hd : ∀ c, body.head? = some c → isDigitC c = true) :
    lrSign (sgnChars sg ++ body) = (sgnVal sg, body) := by
  cases sg with
  | none =>
    rw [show sgnChars none = [] from rfl, List.nil_append]
    unfold lrSign
    cases body with
    | nil => rfl
    | cons c0 r =>
      have hc0 := hd c0 rfl
      rw [dropWhile_eq_self_of_head (fun c hc => by
        cases hc
        exact digit_not_spc hc0)]
      simp only []
      rw [if_neg (digit_ne hc0 (by decide)), if_neg (digit_ne hc0 (by decide))]
      rfl
  | some b =>
    cases b with
    | true =>
      rw [show sgnChars (some true) = ['+'] from rfl]
      unfold lrSign
      rw [dropWhile_eq_self_of_head (fun c hc => by
        rw [List.cons_append] at hc
        cases hc
        decide)]
      rw [List.cons_append]
      simp [sgnVal]
    | false =>
      rw [show sgnChars (some false) = ['-'] from rfl]
      unfold lrSign
      rw [dropWhile_eq_self_of_head (fun c hc => by
        rw [List.cons_append] at hc
        cases hc
        decide)]
      rw [List.cons_append]
      simp [sgnVal]

theorem lrNum_eq (ip fp tail : Str) (comma : Bool)
    (hip : ip ≠ []) (hipd : ∀ c ∈ ip, isDigitC c = true)
    (hfpd : ∀ c ∈ fp, isDigitC c = true)
    (htail : ∀ c, tail.head? = some c →
      isDigitC c = false ∧ c ≠ '.' ∧ c ≠ ',') :
    lrNum (ip ++ (if fp = [] then [] else (if comma then ',' else '.') :: fp) ++ tail) =
      some (ip, fp, tail) := by
  by_cases hfp : fp = []
  · subst hfp
    rw [if_pos rfl, List.append_nil]
    unfold lrNum
    obtain ⟨htw, hdw⟩ := takeWhile_append_all hipd (fun c hc => (htail c hc).1)
    rw [htw, hdw, if_neg hip]
    cases htl : tail with
    | nil => rfl
    | cons c r =>
      have hc := htail c (by rw [htl, List.head?_cons])
      simp only []
      rw [if_neg (by
        rintro ⟨hcc | hcc, _⟩
        · exact hc.2.1 hcc
        · exact hc.2.2 hcc)]
  · rw [if_neg hfp]
    have hsepd : isDigitC (if comma then ',' else '.') = false := by
      cases comma <;> decide
    rw [List.append_assoc, List.cons_append]
    have hb : ∀ c, (((if comma then ',' else '.') :: (fp ++ tail)) : Str).head? = some c →
        isDigitC c = false := by
      intro c hc
      rw [List.head?_cons] at hc
      injection hc with h
      rw [← h]
      exact hsepd
    obtain ⟨htw, hdw⟩ := takeWhile_append_all hipd hb
    unfold lrNum
    rw [htw, hdw, if_neg hip]
    simp only []
    obtain ⟨htw2, hdw2⟩ := takeWhile_append_all hfpd (fun c hc => (htail c hc).1)
    rw [if_pos ⟨by cases comma <;> simp, by rw [htw2]; exact hfp⟩, htw2, hdw2]

theorem lrSuffixMatch_eq (sp isL : Bool) :
    lrSuffixMatch ((if sp then [' '] else []) ++ [if isL then 'L' else 'R']) =
      some (if isL then 'L' else 'R') := by
  cases sp <;> cases isL <;> decide

theorem lrMatch_lr (sg : Option Bool) (ip fp : Str) (comma sp isL : Bool)
    (hip : ip ≠ []) (hipd : ∀ c ∈ ip, isDigitC c = true)
    (hfpd : ∀ c ∈ fp, isDigitC c = true) :
    lrMatch (sgnChars sg ++ (ip ++ (if fp = [] then [] else (if comma then ',' else '.') :: fp)
        ++ ((if sp then [' '] else []) ++ [if isL then 'L' else 'R']))) =
      some (sgnVal sg * ratOfParts ip fp, isL) := by
  have hbodyhead : ∀ c, (ip ++ (if fp = [] then [] else (if comma then ',' else '.') :: fp)
      ++ ((if sp then [' '] else []) ++ [if isL then 'L' else 'R'])).head? = some c →
      isDigitC c = true := by
    intro c hc
    obtain ⟨c0, ip2, rfl⟩ := List.exists_cons_of_ne_nil hip
    rw [List.cons_append, List.cons_append, List.head?_cons] at hc
    injection hc with h
    rw [← h]
    exact hipd c0 (by simp)
  have htail : ∀ c, ((if sp then [' '] else []) ++ [if isL then 'L' else 'R']).head?
      = some c → isDigitC c = false ∧ c ≠ '.' ∧ c ≠ ',' := by
    intro c hc
    cases sp <;> cases isL <;>
      simp only [List.nil_append, List.cons_append, List.head?_cons] at hc <;>
      injection hc with h <;> rw [← h] <;> refine ⟨by decide, by decide, by decide⟩
  unfold lrMatch
  simp only []
  rw [lrSign_eq sg _ hbodyhead]
  simp only []
  rw [lrNum_eq ip fp _ comma hip hipd hfpd htail]
  simp only []
  rw [lrSuffixMatch_eq sp isL]
  simp only []
  have hsufL : ((if isL then 'L' else 'R') == 'L') = isL := by
    cases isL <;> decide
  rw [hsufL]
  rfl

theorem pyFloat_lr_none (sg : Option Bool) (ip fp : Str) (sp isL : Bool)
    (hip : ip ≠ []) (hipd : ∀ c ∈ ip, isDigitC c = true)
    (hfpd : ∀ c ∈ fp, isDigitC c = true) :
    pyFloat (sgnChars sg ++ ip ++ (if fp = [] then [] else '.' :: fp)
      ++ (if sp then [' '] else []) ++ [if isL then 'L' else 'R']) = none := by
  obtain ⟨c0, ip2, hipeq⟩ := List.exists_cons_of_ne_nil hip
  have hc0 : isDigitC c0 = true := hipd c0 (by rw [hipeq]; simp)
  have hmemA : ∀ c ∈ (if fp = [] then ([] : Str) else '.' :: fp),
      isDigitC c = true ∨ c = '.' := by
    intro c hc
    by_cases hfp : fp = []
    · rw [if_pos hfp] at hc
      simp at hc
    · rw [if_neg hfp] at hc
      rcases List.mem_cons.mp hc with h | h
      · exact Or.inr h
      · exact Or.inl (hfpd c h)
  have hmemB : ∀ c ∈ (if sp then [' '] else ([] : Str)), c = ' ' := by
    intro c hc
    cases sp with
    | false => simp at hc
    | true =>
      simp at hc
      simp [hc]
  have hstrip : pyStrip (sgnChars sg ++ ip ++ (if fp = [] then [] else '.' :: fp)
      ++ (if sp then [' '] else []) ++ [if isL then 'L' else 'R']) =
      sgnChars sg ++ ip ++ (if fp = [] then [] else '.' :: fp)
      ++ (if sp then [' '] else []) ++ [if isL then 'L' else 'R'] := by
    apply pyStrip_eq_self_of_ends
    · intro c hc
      cases sg with
      | none =>
        rw [hipeq] at hc
        simp only [sgnChars, List.nil_append, List.cons_append, List.head?_cons] at hc
        injection hc with h
        rw [← h]
        exact digit_not_spc hc0
      | some b =>
        cases b <;>
          simp only [sgnChars, List.cons_append, List.nil_append, List.head?_cons] at hc <;>
          injection hc with h <;> rw [← h] <;> decide
    · intro c hc
      rw [List.getLast?_concat] at hc
      injection hc with h
      rw [← h]
      cases isL <;> decide
  have hbodyeq : ∃ t, ip ++ (if fp = [] then [] else '.' :: fp)
      ++ (if sp then [' '] else []) ++ [if isL then 'L' else 'R'] = c0 :: t := by
    refine ⟨ip2 ++ (if fp = [] then [] else '.' :: fp)
      ++ (if sp then [' '] else []) ++ [if isL then 'L' else 'R'], ?_⟩
    rw [hipeq]
    simp [List.cons_append]
  obtain ⟨t, hbody⟩ := hbodyeq
  have hsign : signSplit (sgnChars sg ++ ip ++ (if fp = [] then [] else '.' :: fp)
      ++ (if sp then [' '] else []) ++ [if isL then 'L' else 'R']) =
      ((sg ≠ some false : Bool), ip ++ (if fp = [] then [] else '.' :: fp)
        ++ (if sp then [' '] else []) ++ [if isL then 'L' else 'R']) := by
    cases sg with
    | none =>
      rw [show sgnChars none = [] from rfl, List.nil_append, hbody, signSplit_digit _ hc0,
        ← hbody]
      rfl
    | some b =>
      cases b with
      | true =>
        rw [show sgnChars (some true) = ['+'] from rfl]
        simp only [List.cons_append, List.nil_append]
        simp only [signSplit]
        simp
      | false =>
        rw [show sgnChars (some false) = ['-'] from rfl]
        simp only [List.cons_append, List.nil_append]
        simp only [signSplit]
        simp
  have hdec : decNumber (ip ++ (if fp = [] then [] else '.' :: fp)
      ++ (if sp then [' '] else []) ++ [if isL then 'L' else 'R']) = none := by
    unfold decNumber
    rw [splitOnce_none (by
      intro c hc
      simp only [List.append_assoc, List.mem_append, List.mem_singleton] at hc
      rcases hc with h | h | h | h
      · exact digit_ne (hipd c h) (by decide)
      · rcases hmemA c h with h2 | h2
        · exact digit_ne h2 (by decide)
        · rw [h2]; decide
      · rw [hmemB c h]; decide
      · rw [h]; cases isL <;> decide)]
    have hmant : mantissa (ip ++ (if fp = [] then [] else '.' :: fp)
        ++ (if sp then [' '] else []) ++ [if isL then 'L' else 'R']) = none := by
      by_cases hfp : fp = []
      · subst hfp
        rw [if_pos rfl, List.append_nil]
        unfold mantissa
        rw [splitOnce_none (by
          intro c hc
          simp only [List.append_assoc, List.mem_append, List.mem_singleton] at hc
          rcases hc with h | h | h
          · exact digit_ne (hipd c h) (by decide)
          · rw [hmemB c h]; decide
          · rw [h]; cases isL <;> decide)]
        simp only []
        rw [if_neg (by
          rw [isDigitpart_false_of_mem
            (show (if isL then 'L' else 'R') ∈ (ip ++ (if sp then [' '] else []))
              ++ [if isL then 'L' else 'R'] by simp)
            (by cases isL <;> decide)]
          decide)]
      · rw [if_neg hfp]
        have hassoc : ip ++ ('.' :: fp) ++ (if sp then [' '] else [])
            ++ [if isL then 'L' else 'R'] =
            ip ++ '.' :: (fp ++ ((if sp then [' '] else []) ++ [if isL then 'L' else 'R'])) := by
          simp [List.append_assoc]
        rw [hassoc]
        unfold mantissa
        rw [splitOnce_append _ (fun c hc => digit_ne (hipd c hc) (by decide))]
        simp only []
        rw [if_neg (by
          rintro (⟨h0, hfp2 | hfp2⟩ | ⟨hipn, h0⟩)
          · exact absurd hfp2 (by simp)
          · have hfalse := isDigitpart_false_of_mem
              (show (if isL then 'L' else 'R') ∈
                fp ++ ((if sp then [' '] else []) ++ [if isL then 'L' else 'R']) by simp)
              (by cases isL <;> decide)
            simp [hfp2] at hfalse
          · exact hip hipn)]
    rw [hmant]
  unfold pyFloat
  simp only []
  rw [hstrip, hsign]
  simp only []
  rw [hbody]
  rw [if_neg (by
    rw [show "INF".toList = ['I', 'N', 'F'] from rfl,
      show "INFINITY".toList = ['I', 'N', 'F', 'I', 'N', 'I', 'T', 'Y'] from rfl]
    rintro (hq | hq) <;> (injection hq with h1 h2; exact digit_ne hc0 (by decide) h1))]
  rw [if_neg (by
    rw [show "NAN".toList = ['N', 'A', 'N'] from rfl]
    intro hq
    injection hq with h1 h2
    exact digit_ne hc0 (by decide) h1)]
  rw [← hbody, hdec]

theorem commaDot_chunks (sg : Option Bool) (ip fp : Str) (comma : Bool)
    (hipd : ∀ c ∈ ip, isDigitC c = true)
    (hfpd : ∀ c ∈ fp, isDigitC c = true) :
    commaDot (sgnChars sg) = sgnChars sg ∧
    commaDot ip = ip ∧
    commaDot (if fp = [] then [] else (if comma then ',' else '.') :: fp) =
      (if fp = [] then [] else '.' :: fp) := by
  have hdig : ∀ l : Str, (∀ c ∈ l, isDigitC c = true) → commaDot l = l := by
    intro l hl
    exact map_id_of_fix (fun c hc => by
      rw [if_neg (digit_ne (hl c hc) (by decide))])
  refine ⟨?_, hdig ip hipd, ?_⟩
  · cases sg with
    | none => rfl
    | some b => cases b <;> decide
  · by_cases hfp : fp = []
    · rw [if_pos hfp, if_pos hfp]
      rfl
    · rw [if_neg hfp, if_neg hfp]
      unfold commaDot
      rw [List.map_cons]
      have h1 : (if (if comma then ',' else '.') = ',' then '.'
          else (if comma then ',' else '.')) = '.' := by
        cases comma <;> decide
      rw [h1]
      have h2 := hdig fp hfpd
      unfold commaDot at h2
      rw [h2]

theorem commaDot_sp_suf (sp isL : Bool) :
    commaDot ((if sp then [' '] else []) ++ [if isL then 'L' else 'R']) =
      (if sp then [' '] else []) ++ [if isL then 'L' else 'R'] := by
  cases sp <;> cases isL <;> decide

/-- Claim C3 (amended): a magnitude with `L`/`R` suffix (optional space,
case-insensitive, degree sign and decimal comma tolerated, optional sign)
decodes to the magnitude negated for `L` and kept for `R`; a bare signed
or unsigned decimal numeral decodes to its face value; strings Python
`float` accepts as infinities decode to signed infinite values, not
missing; strings matching none of these decode to missing. -/
theorem parse_lr_spec (sg : Option Bool) (ip fp : Str) (comma dg sp low isL : Bool)
    (hip : ip ≠ []) (hipd : ∀ c ∈ ip, isDigitC c = true)
    (hfpd : ∀ c ∈ fp, isDigitC c = true) :
    (parse_lr (lrInput sg ip fp comma dg sp (lrSuffix low isL)) =
      some (.fin (if isL then -(sgnVal sg * ratOfParts ip fp)
                  else sgnVal sg * ratOfParts ip fp))) ∧
    (parse_lr (bareInput sg ip fp comma dg) =
      some (.fin (sgnVal sg * ratOfParts ip fp))) ∧
    parse_lr ("inf".toList) = some (.inf true) ∧
    parse_lr ("-Infinity".toList) = some (.inf false) ∧
    (∀ l : Str, pyFloat (commaDot (stripDeg ((pyStrip l).map pyUpper))) = none →
      lrMatch (stripDeg ((pyStrip l).map pyUpper)) = none → parse_lr l = none) := by
  obtain ⟨c0, ip2, hipeq⟩ := List.exists_cons_of_ne_nil hip
  have hc0 : isDigitC c0 = true := hipd c0 (by rw [hipeq]; simp)
  have hmapp : ∀ a b : Str, commaDot (a ++ b) = commaDot a ++ commaDot b :=
    fun a b => List.map_append _ a b
  obtain ⟨hcd1, hcd2, hcd3⟩ := commaDot_chunks sg ip fp comma hipd hfpd
  have hcdsp : commaDot (if sp then [' '] else []) = (if sp then [' '] else []) := by
    cases sp <;> decide
  have hcdsuf : commaDot [if isL then 'L' else 'R'] = [if isL then 'L' else 'R'] := by
    cases isL <;> decide
  refine ⟨?_, ?_, by decide, by decide, ?_⟩
  · unfold parse_lr
    simp only []
    rw [clean_lrInput sg ip fp comma dg sp low isL hip hipd hfpd]
    rw [if_neg (by
      rintro (h | h)
      · simp at h
      · rw [hipeq] at h
        cases sg with
        | none =>
          simp only [sgnChars, List.nil_append, List.cons_append] at h
          rw [show "NAN".toList = ['N', 'A', 'N'] from rfl] at h
          injection h with h1 h2
          exact digit_ne hc0 (by decide) h1
        | some b =>
          cases b <;>
            simp only [sgnChars, List.nil_append, List.cons_append] at h <;>
            rw [show "NAN".toList = ['N', 'A', 'N'] from rfl] at h <;>
            injection h with h1 h2 <;> exact absurd h1 (by decide))]
    rw [hmapp, hmapp, hmapp, hmapp, hcd1, hcd2, hcd3, hcdsp, hcdsuf]
    rw [pyFloat_lr_none sg ip fp sp isL hip hipd hfpd]
    simp only []
    rw [show sgnChars sg ++ ip ++ (if fp = [] then []
          else (if comma then ',' else '.') :: fp)
        ++ (if sp then [' '] else []) ++ [if isL then 'L' else 'R'] =
        sgnChars sg ++ (ip ++ (if fp = [] then []
          else (if comma then ',' else '.') :: fp)
        ++ ((if sp then [' '] else []) ++ [if isL then 'L' else 'R'])) by
      simp [List.append_assoc]]
    rw [lrMatch_lr sg ip fp comma sp isL hip hipd hfpd]
  · unfold parse_lr
    simp only []
    rw [clean_bareInput sg ip fp comma dg hip hipd hfpd]
    rw [if_neg (by
      rintro (h | h)
      · rw [hipeq] at h
        simp at h
      · rw [hipeq] at h
        cases sg with
        | none =>
          simp only [sgnChars, List.nil_append, List.cons_append] at h
          rw [show "NAN".toList = ['N', 'A', 'N'] from rfl] at h
          injection h with h1 h2
          exact digit_ne hc0 (by decide) h1
        | some b =>
          cases b <;>
            simp only [sgnChars, List.nil_append, List.cons_append] at h <;>
            rw [show "NAN".toList = ['N', 'A', 'N'] from rfl] at h <;>
            injection h with h1 h2 <;> exact absurd h1 (by decide))]
    rw [hmapp, hmapp, hcd1, hcd2, hcd3]
    rw [pyFloat_bare sg ip fp hip hipd hfpd]
  · intro l h1 h2
    unfold parse_lr
    simp only []
    by_cases hc : stripDeg ((pyStrip l).map pyUpper) = [] ∨
        stripDeg ((pyStrip l).map pyUpper) = "NAN".toList
    · rw [if_pos hc]
    · rw [if_neg hc, h1, h2]

/-- Counterexample to C3 as stated: `"inf"` is neither a magnitude with an
`L`/`R` suffix nor a bare number, yet it does not decode to missing — it
decodes to positive infinity (Python `float("inf")`). -/
theorem parse_lr_counterexample :
    parse_lr ("inf".toList) = some (PyVal.inf true) ∧
    parse_lr ("inf".toList) ≠ none := by
  constructor
  · decide
  · decide

/-- Witness for C3 at the concrete cell `"20 L"`, which decodes to
`-20`. -/
theorem parse_lr_spec_witness :
    parse_lr ("20 L".toList) = some (PyVal.fin (-20)) := by
  have h := (parse_lr_spec none ("20".toList) [] false false true false true
    (by decide) (by decide) (by decide)).1
  have heq : lrInput none ("20".toList) [] false false true (lrSuffix false true)
      = "20 L".toList := by decide
  rw [heq] at h
  rw [h]
  have hd : digitsNat ("20".toList) = 20 := by decide
  simp [sgnVal, ratOfParts, hd, digitsNat]
